import Mathlib

/-!
Verification of the chemin routing engine (enum-based URL router with i18n).

The development shallowly embeds the runtime behaviour of the library crate
(`chemin/src/lib.rs`) together with the code that the derive macro
(`chemin-macros/src/derive_chemin/*`) generates for a compiled route table.
Strings are modelled as lists of characters (`Str`), URLs and locale codes
included, so that all definitions are executable and amenable to induction.

External collaborators of the engine (the `route_recognizer` path matcher,
the `qstring` query-string parser and the `percent_encoding` primitives) are
not part of the repository; their behaviour, where the claims depend on it,
is modelled from the specification and marked as such in doc comments.
-/

namespace Chemin

/-- Character-list strings: the model of Rust `&str`/`String` values. -/
abbrev Str := List Char

/-- A locale code, e.g. `"en"` (`type Locale = &'static str` in `lib.rs`). -/
abbrev Locale := Str

/-- `AcceptedLocales` from `lib.rs`: the caller-side negotiation state. -/
inductive AcceptedLocales where
  | any : AcceptedLocales
  | some (accepted_locales : List Locale) : AcceptedLocales
deriving DecidableEq

/-- `RouteLocales` from `lib.rs`: the declaration-side locale set of one
localized route. -/
inductive RouteLocales where
  | any : RouteLocales
  | some (route_locales : List Locale) : RouteLocales
deriving DecidableEq

/-- `intersect_locales` from `lib.rs`: the route locales that are contained
in the accepted locales, preserving the order of `route_locales`. -/
def intersect_locales (accepted_locales route_locales : List Locale) : List Locale :=
  route_locales.filter (fun route_locale => accepted_locales.contains route_locale)

/-- `AcceptedLocales::accept` from `lib.rs`. -/
def AcceptedLocales.accept : AcceptedLocales → RouteLocales → Bool
  | .any, _ => true
  | .some _, .any => true
  | .some accepted_locales, .some route_locales =>
      route_locales.any (fun route_locale => accepted_locales.contains route_locale)

/-- `AcceptedLocales::accepted_locales_for_sub_route` from `lib.rs`: the
narrowed negotiation state passed down when descending into a sub-route. -/
def AcceptedLocales.accepted_locales_for_sub_route :
    AcceptedLocales → RouteLocales → AcceptedLocales
  | .any, .any => .any
  | .any, .some route_locales => .some route_locales
  | .some accepted_locales, .any => .some accepted_locales
  | .some accepted_locales, .some route_locales =>
      .some (intersect_locales accepted_locales route_locales)

/-- `AcceptedLocales::resulting_locales` from `lib.rs`: the locales reported
to the caller for a successful match. -/
def AcceptedLocales.resulting_locales : AcceptedLocales → RouteLocales → List Locale
  | .any, .any => []
  | .some accepted_locales, .any => accepted_locales
  | .any, .some route_locales => route_locales
  | .some accepted_locales, .some route_locales =>
      intersect_locales accepted_locales route_locales

/-- `PathComponent` from `router/localized_route.rs`: one fixed segment of a
compiled path pattern, either static text or a (possibly named) parameter. -/
inductive PathComponent where
  | static (value : Str) : PathComponent
  | param (name : Option Str) : PathComponent
deriving DecidableEq

/-- `SubRoute` from `router/localized_route.rs`: the optional trailing
sub-route capture of a pattern, unnamed (`..`) or named (`..name`). -/
inductive SubRouteMark where
  | unnamed : SubRouteMark
  | named (name : Str) : SubRouteMark
deriving DecidableEq

/-- `Path` from `router/localized_route.rs`: a compiled path pattern. -/
structure RoutePath where
  components : List PathComponent
  sub_route : Option SubRouteMark
  trailing_slash : Bool
deriving DecidableEq

/-- `unnamed_param_name` from `derive_chemin.rs`: the synthetic identifier
`p{i}` given to the `i`-th unnamed parameter. -/
def unnamed_param_name (i : Nat) : Str :=
  'p' :: Nat.toDigits 10 i

/-- The recognizer name of a parameter: its declared name, or `p{i}` for the
`i`-th parameter when unnamed (`path_to_route_recognizer_path` and
`locale_match_arm` use the same numbering, incremented for every parameter). -/
def param_name : Option Str → Nat → Str
  | Option.some n, _ => n
  | none, i => unnamed_param_name i

/-- The recognizer name of a sub-route capture (`UNNAMED_SUB_ROUTE_NAME` is
`"sub_route"` in `generate_url_parsing.rs`). -/
def sub_route_name : SubRouteMark → Str
  | .unnamed => "sub_route".data
  | .named n => n

/-- One fixed segment of a compiled recognizer pattern, as produced by
`path_to_route_recognizer_path`: static text or a named parameter. -/
inductive Seg where
  | static (value : Str) : Seg
  | param (name : Str) : Seg
deriving DecidableEq

/-- The fixed recognizer segments of a pattern's components, numbering the
unnamed parameters left to right (mirrors the component loop of
`path_to_route_recognizer_path`). -/
def componentSegs : List PathComponent → Nat → List Seg
  | [], _ => []
  | .static v :: rest, i => .static v :: componentSegs rest i
  | .param n :: rest, i => .param (param_name n i) :: componentSegs rest (i + 1)

/-- The names, in order, of the parameters of a component list whose
numbering starts at `i`. -/
def paramNamesFrom (comps : List PathComponent) (i : Nat) : List Str :=
  (componentSegs comps i).filterMap fun s =>
    match s with
    | .param n => Option.some n
    | .static _ => none

/-- The names, in order, of the parameters of a pattern (the order in which
`route_variant_building` binds the captured values). -/
def pathParamNames (p : RoutePath) : List Str :=
  paramNamesFrom p.components 0

/-- Splits a character list at every occurrence of `sep`; always returns at
least one (possibly empty) piece, like Rust's `str::split`. -/
def splitChar (sep : Char) : Str → List Str
  | [] => [[]]
  | c :: cs =>
    match splitChar sep cs with
    | [] => [[]]
    | h :: t => if c = sep then [] :: h :: t else (c :: h) :: t

/-- Joins pieces with `sep` between them (inverse of `splitChar`). -/
def intercalateChar (sep : Char) : List Str → Str
  | [] => []
  | [s] => s
  | s :: rest => s ++ sep :: intercalateChar sep rest

/-- Modelled from the spec: the `route_recognizer` crate (an external
collaborator, not in this repository) drops one leading `/` before
segmenting a path. -/
def stripLeadingSlash : Str → Str
  | '/' :: rest => rest
  | s => s

/-- Modelled from the spec: the `/`-delimited segments of a request path,
after dropping the leading slash; an empty trailing segment signifies a
trailing slash (spec 4.4). -/
def requestSegs (path : Str) : List Str :=
  splitChar '/' (stripLeadingSlash path)

/-- The parameter bindings captured by a structural match: recognizer
parameter name to raw captured text. -/
abbrev Params := List (Str × Str)

/-- `Params::find` of `route_recognizer`, modelled from the spec: the value
bound to a parameter name. -/
def params_find (ps : Params) (name : Str) : Option Str :=
  (ps.find? fun p => p.1 == name).map (·.2)

/-- Modelled from the spec (4.4, behaviour of the external
`route_recognizer` matcher): positional matching of the fixed pattern
segments against the request segments — static text needs exact equality, a
parameter matches any single non-empty segment. -/
def matchSegs : List Seg → List Str → Option Params
  | [], [] => Option.some []
  | .static v :: ps, r :: rs => if r = v then matchSegs ps rs else none
  | .param n :: ps, r :: rs =>
    if r = [] then none else (matchSegs ps rs).map (fun t => (n, r) :: t)
  | _, _ => none

/-- Modelled from the spec (4.4): matching of the fixed pattern segments
against a leading portion of the request segments, returning the bindings
and the remaining request segments (used before a sub-route capture). -/
def matchLeading : List Seg → List Str → Option (Params × List Str)
  | [], rest => Option.some ([], rest)
  | .static v :: ps, r :: rs => if r = v then matchLeading ps rs else none
  | .param n :: ps, r :: rs =>
    if r = [] then none
    else (matchLeading ps rs).map (fun x => ((n, r) :: x.1, x.2))
  | _ :: _, [] => none

/-- Modelled from the spec (4.4): structural match of one compiled pattern
against the request segments.  Without a sub-route the fixed segments (plus
an empty segment for a trailing slash, as appended by
`path_to_route_recognizer_path`) must consume the request exactly; with a
sub-route the remaining segments, rejoined with `/`, form the capture
region, which must be non-empty. -/
def recognize (p : RoutePath) (segs : List Str) : Option Params :=
  match p.sub_route with
  | none =>
    matchSegs
      (componentSegs p.components 0 ++ if p.trailing_slash then [Seg.static []] else [])
      segs
  | Option.some sr =>
    match matchLeading (componentSegs p.components 0) segs with
    | none => none
    | Option.some (ps, rest) =>
      let rest' :=
        if p.trailing_slash then
          match rest.getLast? with
          | Option.some [] => Option.some rest.dropLast
          | _ => none
        else Option.some rest
      match rest' with
      | none => none
      | Option.some rest'' =>
        let capture := intercalateChar '/' rest''
        if capture = [] then none
        else Option.some (ps ++ [(sub_route_name sr, capture)])

/-- Query-parameter mode from `router.rs` (`QueryParam`): mandatory,
optional, or with a default value. -/
inductive QueryParamMode where
  | mandatory : QueryParamMode
  | optional : QueryParamMode
  | withDefault (default : Str) : QueryParamMode
deriving DecidableEq

/-- One `#[query_param]` declaration of a route case (`QueryParam` in
`router.rs`), together with the field's pluggable textual-parse contract
(`str::parse` of the field type, out of scope per spec 1). -/
structure QueryParamSpec where
  name : Str
  mode : QueryParamMode
  parse_field : Str → Option Str

mutual

/-- A compiled route table: one entry per `(variant, localized route)` pair
in declaration order, exactly as `router_entries` of
`generate_url_parsing.rs` adds them. -/
inductive Router where
  | mk (entries : List RouterEntry) : Router

/-- One table entry: the variant index it builds, its compiled pattern, its
declared locales (empty list meaning `RouteLocales::Any`, as tested by
`route_handler`), its query-parameter declarations, and the nested route
table when the pattern ends in a sub-route capture. -/
inductive RouterEntry where
  | mk (variantIdx : Nat) (path : RoutePath) (locales : List Locale)
      (query_params : List QueryParamSpec) (sub : Option Router) : RouterEntry

end

/-- The entry list of a router. -/
def Router.entries : Router → List RouterEntry
  | .mk es => es

/-- The variant index of a table entry. -/
def RouterEntry.variantIdx : RouterEntry → Nat
  | .mk v _ _ _ _ => v

/-- The compiled pattern of a table entry. -/
def RouterEntry.path : RouterEntry → RoutePath
  | .mk _ p _ _ _ => p

/-- The declared locales of a table entry (empty means `Any`). -/
def RouterEntry.locales : RouterEntry → List Locale
  | .mk _ _ ls _ _ => ls

/-- The query-parameter declarations of a table entry's case. -/
def RouterEntry.query_params : RouterEntry → List QueryParamSpec
  | .mk _ _ _ qs _ => qs

/-- The nested route table of a table entry, when its pattern has a
sub-route capture. -/
def RouterEntry.sub : RouterEntry → Option Router
  | .mk _ _ _ _ s => s

/-- `route_handler` converts the declared locale list to `RouteLocales`:
an empty list means `Any`. -/
def route_locales_of (locales : List Locale) : RouteLocales :=
  if locales = [] then .any else .some locales

/-- A bound route value: the variant it instantiates, its path-parameter
fields (recognizer name to parsed text), its resolved query-parameter
fields (`none` is the absent state of an optional parameter), and the bound
sub-route value when the pattern delegates. -/
inductive RouteValue where
  | mk (variantIdx : Nat) (fields : List (Str × Str))
      (query_fields : List (Str × Option Str)) (sub : Option RouteValue) : RouteValue

/-- Modelled from the spec (4.4 tie-breaking): the specificity rank of a
pattern, one number per fixed position — literal segments rank above
parametric ones, a sub-route capture ranks lowest. -/
def pathRank (p : RoutePath) : List Nat :=
  (p.components.map fun c =>
    match c with
    | .static _ => 2
    | .param _ => 1)
    ++ (match p.sub_route with
        | Option.some _ => [0]
        | none => [])
    ++ (if p.trailing_slash then [2] else [])

/-- Lexicographic strictly-greater comparison of specificity ranks. -/
def rankGt : List Nat → List Nat → Bool
  | _ :: _, [] => true
  | [], _ => false
  | a :: as, b :: bs => if b < a then true else if a < b then false else rankGt as bs

/-- Modelled from the spec (4.4): among the candidate entries that
structurally match the request, prefer the more specific pattern, and among
equally specific candidates keep the earliest-declared one. -/
def pickBest : List (RouterEntry × Params) → Option (RouterEntry × Params)
  | [] => none
  | c :: cs =>
    Option.some (cs.foldl
      (fun best x => if rankGt (pathRank x.1.path) (pathRank best.1.path) then x else best)
      c)

/-- Modelled from the spec (4.4): the single table entry (with its captured
parameters) that `route_recognizer`'s `recognize` resolves a request to. -/
def selectEntry (entries : List RouterEntry) (segs : List Str) :
    Option (RouterEntry × Params) :=
  pickBest (entries.filterMap fun e =>
    (recognize e.path segs).map fun ps => (e, ps))

/-- Hexadecimal value of one character, both cases accepted. -/
def hexVal (c : Char) : Option Nat :=
  if '0' ≤ c ∧ c ≤ '9' then Option.some (c.toNat - '0'.toNat)
  else if 'a' ≤ c ∧ c ≤ 'f' then Option.some (c.toNat - 'a'.toNat + 10)
  else if 'A' ≤ c ∧ c ≤ 'F' then Option.some (c.toNat - 'A'.toNat + 10)
  else none

/-- Modelled from the spec: `decode_param` of `lib.rs` delegates to the
external `percent_encoding` crate — `%XX` escapes are decoded, a malformed
escape makes the whole decode fail (character-level model, faithful for
byte-sized text). -/
def decode_param : Str → Option Str
  | [] => Option.some []
  | c :: rest =>
    if c = '%' then
      match rest with
      | h1 :: h2 :: rest' =>
        match hexVal h1, hexVal h2 with
        | Option.some v1, Option.some v2 =>
          (decode_param rest').map fun t => Char.ofNat (16 * v1 + v2) :: t
        | _, _ => none
      | _ => none
    else (decode_param rest).map fun t => c :: t

/-- One digit of an uppercase hexadecimal escape. -/
def hexDigit (n : Nat) : Char :=
  if n < 10 then Char.ofNat ('0'.toNat + n) else Char.ofNat ('A'.toNat + n - 10)

/-- Modelled from the spec: `encode_param` of `lib.rs` percent-encodes every
character that is not alphanumeric and not one of `-`, `_`, `.`, `~`
(character-level model, faithful for ASCII text). -/
def encode_param (s : Str) : Str :=
  s.foldr
    (fun c acc =>
      if c.isAlphanum ∨ c = '-' ∨ c = '_' ∨ c = '.' ∨ c = '~' then c :: acc
      else '%' :: hexDigit (c.toNat / 16) :: hexDigit (c.toNat % 16) :: acc)
    []

/-- Modelled from the spec: lossy percent-decoding as performed by the
external `qstring` crate on keys and values — malformed escapes are kept
verbatim. -/
def percentDecodeLossy : Str → Str
  | [] => []
  | '%' :: h1 :: h2 :: rest =>
    match hexVal h1, hexVal h2 with
    | Option.some v1, Option.some v2 => Char.ofNat (16 * v1 + v2) :: percentDecodeLossy rest
    | _, _ => '%' :: percentDecodeLossy (h1 :: h2 :: rest)
  | '%' :: rest => '%' :: percentDecodeLossy rest
  | c :: rest => c :: percentDecodeLossy rest

/-- Splits one `key=value` pair at the first `=` (no `=` means an empty
value), as the external `qstring` crate does. -/
def splitKV : Str → Str × Str
  | [] => ([], [])
  | '=' :: rest => ([], rest)
  | c :: rest =>
    let kv := splitKV rest
    (c :: kv.1, kv.2)

/-- A parsed query string: ordered key-value pairs. -/
abbrev QStringPairs := List (Str × Str)

/-- Modelled from the spec (4.3, behaviour of the external `qstring`
crate): split the query string on `&`, skip empty fragments, split each
pair at the first `=`, and percent-decode keys and values. -/
def qstring_from (s : Str) : QStringPairs :=
  (splitChar '&' s).filterMap fun pair =>
    if pair = [] then none
    else
      let kv := splitKV pair
      Option.some (percentDecodeLossy kv.1, percentDecodeLossy kv.2)

/-- Modelled from the spec (4.3): the value bound to a query key — on
duplicate keys the last occurrence wins. -/
def qstring_get (qs : QStringPairs) (name : Str) : Option Str :=
  ((qs.filter fun p => p.1 == name).getLast?).map (·.2)

/-- `Chemin::parse` of `lib.rs` replaces `+` by `%20` in the query string
before handing it to the query-string parser. -/
def replacePlus : Str → Str
  | [] => []
  | '+' :: rest => '%' :: '2' :: '0' :: replacePlus rest
  | c :: rest => c :: replacePlus rest

/-- Modelled from the spec (4.3 field resolution; the macro code that emits
this resolution is not part of the sources, only the `QueryParam`
declarations in `router.rs` are): resolve each declared query parameter
against the flat query string — a `Mandatory` parameter must be present, an
absent `Optional` parameter binds the absent state, an absent `WithDefault`
parameter binds its default; every present value must parse via the field's
textual-parse contract, any failure failing the whole resolution. -/
def resolve_query_params (qs : QStringPairs) :
    List QueryParamSpec → Option (List (Str × Option Str))
  | [] => Option.some []
  | spec :: rest =>
    match qstring_get qs spec.name, spec.mode with
    | Option.some raw, _ =>
      match spec.parse_field raw with
      | Option.some v =>
        (resolve_query_params qs rest).map fun t => (spec.name, Option.some v) :: t
      | none => none
    | none, .mandatory => none
    | none, .optional =>
      (resolve_query_params qs rest).map fun t => (spec.name, none) :: t
    | none, .withDefault d =>
      (resolve_query_params qs rest).map fun t => (spec.name, Option.some d) :: t

/-- `route_variant_building` from `generate_url_parsing.rs`: bind every path
parameter of the pattern, percent-decoding the captured text first when
`decode_params` is set (the field codec is the identity, modelling `String`
fields). -/
def build_fields (p : RoutePath) (params : Params) (decode_params : Bool) :
    Option (List (Str × Str)) :=
  (pathParamNames p).mapM fun n =>
    let raw := (params_find params n).getD []
    (if decode_params then decode_param raw else Option.some raw).map fun v => (n, v)

/-- `parse_with_accepted_locales` as generated by `parsing_method` and
`route_handler` of `generate_url_parsing.rs`: recognize the path against
the compiled table, check the selected entry's declared locales against the
accepted set (rejection fails the parse outright), recursively parse a
sub-route capture under the narrowed accepted set, bind the path parameters
and resolve the declared query parameters.  `fuel` bounds the sub-route
recursion depth (plain call-stack recursion in the source). -/
def parse_with_accepted_locales :
    Nat → Router → Str → AcceptedLocales → Bool → QStringPairs →
      Option (RouteValue × List Locale)
  | 0, _, _, _, _, _ => none
  | Nat.succ fuel, Router.mk entries, path, accepted_locales, decode_params, qs =>
    match selectEntry entries (requestSegs path) with
    | none => none
    | Option.some (e, params) =>
      let route_locales := route_locales_of e.locales
      if accepted_locales.accept route_locales then
        match e.path.sub_route with
        | none =>
          match build_fields e.path params decode_params,
              resolve_query_params qs e.query_params with
          | Option.some fs, Option.some qf =>
            Option.some (RouteValue.mk e.variantIdx fs qf none,
              accepted_locales.resulting_locales route_locales)
          | _, _ => none
        | Option.some sr =>
          match e.sub with
          | none => none
          | Option.some sub_router =>
            let sub_route_path := (params_find params (sub_route_name sr)).getD []
            match parse_with_accepted_locales fuel sub_router sub_route_path
                (accepted_locales.accepted_locales_for_sub_route route_locales)
                decode_params qs with
            | none => none
            | Option.some (sub_value, sub_route_resulting_locales) =>
              match build_fields e.path params decode_params,
                  resolve_query_params qs e.query_params with
              | Option.some fs, Option.some qf =>
                Option.some (RouteValue.mk e.variantIdx fs qf (Option.some sub_value),
                  sub_route_resulting_locales)
              | _, _ => none
      else none

/-- `Chemin::parse` from `lib.rs`: split the URL at the first `?`, build the
query-string view from everything after it (rejoined with `?`, `+` replaced
by `%20`), and match the path starting from `AcceptedLocales::Any`. -/
def parse (fuel : Nat) (r : Router) (url : Str) (decode_params : Bool) :
    Option (RouteValue × List Locale) :=
  match splitChar '?' url with
  | [] => none
  | path :: rest =>
    let qs := if rest = [] then [] else qstring_from (replacePlus (intercalateChar '?' rest))
    parse_with_accepted_locales fuel r path AcceptedLocales.any decode_params qs

/-- The generated `generate_url` matches the target locale against one arm
per localized route (`locale_match_arm`): a route declared without locales
compiles to a wildcard arm, one with locales to `Some(l1) | Some(l2) | …`. -/
def locale_matches_arm (locale : Option Locale) (entry_locales : List Locale) : Bool :=
  entry_locales.isEmpty ||
    match locale with
    | Option.some l => entry_locales.contains l
    | none => false

/-- The first localized route (in declaration order) whose match arm accepts
the target locale, as Rust `match` semantics select it. -/
def select_localized (locale : Option Locale) : List RouterEntry → Option RouterEntry
  | [] => none
  | e :: rest =>
    if locale_matches_arm locale e.locales then Option.some e
    else select_localized locale rest

/-- The format string built by `locale_match_arm`: `/` followed by the
static text or the (optionally percent-encoded) bound field text, for every
component in order. -/
def render_components : List PathComponent → Nat → List (Str × Str) → Bool → Str
  | [], _, _, _ => []
  | .static v :: rest, i, fields, enc => '/' :: (v ++ render_components rest i fields enc)
  | .param n :: rest, i, fields, enc =>
    let raw := (params_find fields (param_name n i)).getD []
    '/' :: ((if enc then encode_param raw else raw) ++ render_components rest (i + 1) fields enc)

/-- The rendered text of each component, in order: the static text, or the
(optionally percent-encoded) bound field text — the segment texts of the
URL `render_components` builds. -/
def renderTexts : List PathComponent → Nat → List (Str × Str) → Bool → List Str
  | [], _, _, _ => []
  | .static v :: rest, i, fields, enc => v :: renderTexts rest i fields enc
  | .param n :: rest, i, fields, enc =>
    (if enc then encode_param ((params_find fields (param_name n i)).getD [])
      else (params_find fields (param_name n i)).getD []) ::
      renderTexts rest (i + 1) fields enc

/-- The parameter bindings a structural match of the rendered URL captures:
each parameter name paired with its rendered text. -/
def renderBindings : List PathComponent → Nat → List (Str × Str) → Bool → Params
  | [], _, _, _ => []
  | .static _ :: rest, i, fields, enc => renderBindings rest i fields enc
  | .param n :: rest, i, fields, enc =>
    (param_name n i,
      if enc then encode_param ((params_find fields (param_name n i)).getD [])
      else (params_find fields (param_name n i)).getD []) ::
      renderBindings rest (i + 1) fields enc

/-- `generate_url` as generated by `url_generation_method` and
`locale_match_arm` of `generate_url_generation.rs`: pick the first localized
route of the value's variant whose arm accepts the target locale, render its
components, splice in the recursively generated sub-route URL without a
separator (the sub-route URL is relied upon to begin with `/`), and append
the trailing slash if the pattern requires it.  `fuel` bounds the sub-route
recursion depth. -/
def generate_url : Nat → Router → RouteValue → Option Locale → Bool → Option Str
  | 0, _, _, _, _ => none
  | Nat.succ fuel, Router.mk entries, RouteValue.mk variantIdx fields _ sub, locale,
      encode_params =>
    match select_localized locale (entries.filter fun e => e.variantIdx == variantIdx) with
    | none => none
    | Option.some e =>
      let base := render_components e.path.components 0 fields encode_params
      let trail := if e.path.trailing_slash then ['/'] else []
      match e.path.sub_route with
      | none => Option.some (base ++ trail)
      | Option.some _ =>
        match sub, e.sub with
        | Option.some sub_value, Option.some sub_router =>
          (generate_url fuel sub_router sub_value locale encode_params).map
            fun sub_url => base ++ sub_url ++ trail
        | _, _ => none

/-- The compiled table of a router whose only case is `#[route("/")] Home`:
no components, no sub-route, trailing slash (the root pattern of the crate's
doc examples and tests). -/
def rootRouter : Router :=
  .mk [.mk 0 (RoutePath.mk [] none true) [] [] none]

/-- The compiled table of the specification's scenario route
`Hello(String)` with `en => "/hello/:"` and `fr => "/bonjour/:"`. -/
def helloRouter : Router :=
  .mk
    [ .mk 0 (RoutePath.mk [.static "hello".data, .param none] none false)
        ["en".data] [] none
    , .mk 0 (RoutePath.mk [.static "bonjour".data, .param none] none false)
        ["fr".data] [] none ]

/-- A sub-route table with two cases sharing the same path `/x`, the first
declared for `fr` only and the second for `en` only. -/
def subAB : Router :=
  .mk
    [ .mk 0 (RoutePath.mk [.static "x".data] none false) ["fr".data] [] none
    , .mk 1 (RoutePath.mk [.static "x".data] none false) ["en".data] [] none ]

/-- A parent table whose only case is `#[route(en => "/sub/..")]`
delegating to `subAB`. -/
def parentP : Router :=
  .mk
    [ .mk 0 (RoutePath.mk [.static "sub".data] (Option.some .unnamed) false)
        ["en".data] [] (Option.some subAB) ]

/-- A sub-route table whose only case is `#[route("/a/b")]`. -/
def subS2 : Router :=
  .mk [.mk 0 (RoutePath.mk [.static "a".data, .static "b".data] none false) [] [] none]

/-- The mandatory query parameter `q` with the always-succeeding textual
parse of a `String` field. -/
def qSpec : QueryParamSpec :=
  ⟨"q".data, .mandatory, Option.some⟩

/-- The table entry of `#[route("/x/..rest")]` with mandatory query
parameter `q`, delegating to `subS2` (the specification's sub-route/query
scenario). -/
def qEntry : RouterEntry :=
  .mk 0 (RoutePath.mk [.static "x".data] (Option.some (.named "rest".data)) false)
    [] [qSpec] (Option.some subS2)

/-- The parent table holding only `qEntry`. -/
def parentQ : Router :=
  .mk [qEntry]

/-- A parent table whose only case is `#[route("/sub/..")]` delegating to
the root-only table (`#[route("/")]`). -/
def subLossRouter : Router :=
  .mk
    [ .mk 0 (RoutePath.mk [.static "sub".data] (Option.some .unnamed) false)
        [] [] (Option.some rootRouter) ]

/-- A table whose only case is `#[route("/x")]` with a mandatory query
parameter `q`. -/
def qGenRouter : Router :=
  .mk [.mk 0 (RoutePath.mk [.static "x".data] none false) [] [qSpec] none]

/-- A table with two distinct cases sharing the identical pattern `/x`. -/
def ambRouter : Router :=
  .mk
    [ .mk 0 (RoutePath.mk [.static "x".data] none false) [] [] none
    , .mk 1 (RoutePath.mk [.static "x".data] none false) [] [] none ]

/-- A pattern with at least one segment, a sub-route capture, or a trailing
slash — every pattern produced from a non-empty route literal is such,
since every piece of the route grammar starts with `/`, `:` or `..`. -/
def nonDegenerate (p : RoutePath) : Prop :=
  p.components ≠ [] ∨ p.sub_route.isSome = true ∨ p.trailing_slash = true

/-- A well-formed compiled table: every entry's pattern is non-degenerate,
recursively in nested sub-route tables. -/
inductive WFRouter : Router → Prop where
  | mk (entries : List RouterEntry)
      (hnd : ∀ e ∈ entries, nonDegenerate (RouterEntry.path e))
      (hsub : ∀ e ∈ entries, ∀ sr, RouterEntry.sub e = Option.some sr → WFRouter sr) :
      WFRouter (Router.mk entries)

end Chemin

namespace Chemin

/-- C6: `accept` returns true when either side is `Any`, and otherwise
exactly when the two explicit sets share an element; the three concrete
examples of the specification evaluate as stated. -/
theorem accept_spec :
    (∀ r, AcceptedLocales.any.accept r = true) ∧
    (∀ a, (AcceptedLocales.some a).accept .any = true) ∧
    (∀ a r, (AcceptedLocales.some a).accept (.some r) = true ↔ ∃ l, l ∈ a ∧ l ∈ r) ∧
    (AcceptedLocales.some ["en".data, "fr".data]).accept .any = true ∧
    (AcceptedLocales.some ["en".data, "fr".data]).accept (.some ["es".data]) = false ∧
    (AcceptedLocales.some ["en".data, "fr".data]).accept
      (.some ["fr".data, "es".data]) = true := by
  refine ⟨fun r => rfl, fun a => rfl, fun a r => ?_, by decide, by decide, by decide⟩
  have h : ∀ (xs : List Locale) (l : Locale), xs.contains l = decide (l ∈ xs) :=
    fun xs l => List.elem_eq_mem l xs
  simp only [AcceptedLocales.accept, List.any_eq_true, h, decide_eq_true_eq]
  exact ⟨fun ⟨l, hr, ha⟩ => ⟨l, ha, hr⟩, fun ⟨l, ha, hr⟩ => ⟨l, hr, ha⟩⟩

/-- C7: `resulting_locales` realizes the four-case table of the
specification; in the doubly-explicit case the result is the sublist of the
declared locales `r` whose members are accepted, in `r`'s order. -/
theorem resulting_locales_spec :
    (AcceptedLocales.any.resulting_locales .any = []) ∧
    (∀ r, AcceptedLocales.any.resulting_locales (.some r) = r) ∧
    (∀ a, (AcceptedLocales.some a).resulting_locales .any = a) ∧
    (∀ a r, (AcceptedLocales.some a).resulting_locales (.some r) =
      r.filter (fun l => decide (l ∈ a))) := by
  refine ⟨rfl, fun r => rfl, fun a => rfl, fun a r => ?_⟩
  have h : ∀ (xs : List Locale) (l : Locale), xs.contains l = decide (l ∈ xs) :=
    fun xs l => List.elem_eq_mem l xs
  simp only [AcceptedLocales.resulting_locales, intersect_locales, h]

/-- C4 counterexample: on `Explicit(["en","fr"])` against
`Explicit(["fr","en"])` the code narrows to `["fr","en"]` (the declared
list filtered by acceptance, in the declared list's order), which differs
from the claim's `A filtered to members of R, preserving A's order`,
i.e. `["en","fr"]`. -/
theorem narrow_order_counterexample :
    (AcceptedLocales.some ["en".data, "fr".data]).accepted_locales_for_sub_route
        (.some ["fr".data, "en".data]) =
      .some ["fr".data, "en".data] ∧
    (AcceptedLocales.some ["en".data, "fr".data]).accepted_locales_for_sub_route
        (.some ["fr".data, "en".data]) ≠
      .some (["en".data, "fr".data].filter
        (fun l => (["fr".data, "en".data] : List Locale).contains l)) := by
  constructor
  · decide
  · decide

/-- C4 (amended): the narrowing operation satisfies
`narrow(Any, Any) = Any`, `narrow(Any, Explicit R) = Explicit R`,
`narrow(Explicit A, Any) = Explicit A`, and
`narrow(Explicit A, Explicit R) = Explicit (the sublist of R whose members
are in A, in R's order)`. -/
theorem narrow_spec :
    (AcceptedLocales.any.accepted_locales_for_sub_route .any = .any) ∧
    (∀ r, AcceptedLocales.any.accepted_locales_for_sub_route (.some r) = .some r) ∧
    (∀ a, (AcceptedLocales.some a).accepted_locales_for_sub_route .any = .some a) ∧
    (∀ a r, (AcceptedLocales.some a).accepted_locales_for_sub_route (.some r) =
      .some (r.filter (fun l => decide (l ∈ a)))) := by
  refine ⟨rfl, fun r => rfl, fun a => rfl, fun a r => ?_⟩
  have h : ∀ (xs : List Locale) (l : Locale), xs.contains l = decide (l ∈ xs) :=
    fun xs l => List.elem_eq_mem l xs
  simp only [AcceptedLocales.accepted_locales_for_sub_route, intersect_locales, h]

end Chemin

namespace Chemin

/-- Matching depends on the request path only through its segments: two
paths with the same `/`-segmentation parse identically. -/
theorem parse_with_accepted_locales_congr (fuel : Nat) (r : Router) (p1 p2 : Str)
    (acc : AcceptedLocales) (dec : Bool) (qs : QStringPairs)
    (h : requestSegs p1 = requestSegs p2) :
    parse_with_accepted_locales fuel r p1 acc dec qs =
      parse_with_accepted_locales fuel r p2 acc dec qs := by
  cases fuel with
  | zero => rfl
  | succ fuel =>
    cases r with
    | mk entries =>
      simp only [parse_with_accepted_locales, h]

/-- C9: parsing the empty URL gives exactly the same result as parsing
`"/"`, for every router and either decode flag; in particular both succeed
on the root case whose only pattern has no components and a trailing
slash. -/
theorem parse_empty_eq_parse_root :
    (∀ fuel r dec, parse fuel r "".data dec = parse fuel r "/".data dec) ∧
    (∀ dec, parse 1 rootRouter "/".data dec =
        Option.some (RouteValue.mk 0 [] [] none, []) ∧
      parse 1 rootRouter "".data dec =
        Option.some (RouteValue.mk 0 [] [] none, [])) := by
  constructor
  · intro fuel r dec
    show parse_with_accepted_locales fuel r [] AcceptedLocales.any dec [] =
      parse_with_accepted_locales fuel r ['/'] AcceptedLocales.any dec []
    exact parse_with_accepted_locales_congr fuel r [] ['/'] _ dec [] rfl
  · intro dec
    cases dec <;> exact ⟨rfl, rfl⟩

end Chemin

namespace Chemin

/-- C5: URL generation qualification — with no target locale the selected
localized route is the first one declared for `Any`; with target `l` it is
the first one declared for `Any` or containing `l`; when the selection is
empty the whole generation fails; and generating `Hello("John")` for locale
`"es"` on the `en`/`fr` table is absent. -/
theorem generation_locale_selection :
    (∀ lrs, select_localized none lrs = lrs.find? fun e => e.locales.isEmpty) ∧
    (∀ l lrs, select_localized (Option.some l) lrs =
      lrs.find? fun e => e.locales.isEmpty || e.locales.contains l) ∧
    (∀ fuel entries v fields qf sub locale enc,
      select_localized locale (entries.filter fun e => e.variantIdx == v) = none →
      generate_url (fuel + 1) (.mk entries) (.mk v fields qf sub) locale enc = none) ∧
    generate_url 1 helloRouter
      (.mk 0 [(unnamed_param_name 0, "John".data)] [] none)
      (Option.some "es".data) true = none := by
  refine ⟨?_, ?_, ?_, rfl⟩
  · intro lrs
    induction lrs with
    | nil => rfl
    | cons e rest ih =>
      simp only [select_localized, locale_matches_arm, List.find?, Bool.or_false]
      by_cases h : e.locales.isEmpty <;> simp [h, ih]
  · intro l lrs
    induction lrs with
    | nil => rfl
    | cons e rest ih =>
      simp only [select_localized, locale_matches_arm, List.find?]
      by_cases h : e.locales = [] ∨ l ∈ e.locales
      · have hb : (e.locales.isEmpty || decide (l ∈ e.locales)) = true := by
          simpa using h
        simp [hb, h, ih]
      · have hb : (e.locales.isEmpty || decide (l ∈ e.locales)) = false := by
          simpa using h
        simp [hb, h, ih]
  · intro fuel entries v fields qf sub locale enc h
    simp only [generate_url, h]

end Chemin

namespace Chemin

/-- Witness for C5 at a concrete input: on the `en`/`fr` table the locale
`"es"` qualifies no localized route, so generation is absent. -/
theorem generation_locale_selection_witness :
    select_localized (Option.some "es".data)
        (helloRouter.entries.filter fun e => e.variantIdx == 0) = none ∧
    generate_url 1 (.mk helloRouter.entries)
      (.mk 0 [(unnamed_param_name 0, "John".data)] [] none)
      (Option.some "es".data) true = none :=
  ⟨rfl,
    generation_locale_selection.2.2.1 0 helloRouter.entries 0
      [(unnamed_param_name 0, "John".data)] [] none (Option.some "es".data) true rfl⟩

/-- C2 counterexample: in `parentP` the request `/sub/x` narrows the
accepted locales to `en`; the first sub-table entry (declared `fr`, path
`/x`) is selected and locale-rejected, and although the second entry has
the same path `/x` and is locale-accepted, the whole parse fails — matching
does not continue to the next candidate entry. -/
theorem locale_fallback_counterexample :
    parse 2 parentP "/sub/x".data false = none ∧
    recognize (RoutePath.mk [.static "x".data] none false) (requestSegs "x".data) =
      Option.some [] ∧
    (AcceptedLocales.some ["en".data]).accept (route_locales_of ["en".data]) = true :=
  ⟨rfl, rfl, rfl⟩

/-- C2 (amended): the generated parser attempts only the single table entry
the recognizer selects for the path; when the accepted locales reject that
entry's declared locales, the parse returns `None` without trying any other
entry. -/
theorem locale_rejection_aborts
    (fuel : Nat) (entries : List RouterEntry) (path : Str) (acc : AcceptedLocales)
    (dec : Bool) (qs : QStringPairs) (e : RouterEntry) (params : Params)
    (hsel : selectEntry entries (requestSegs path) = Option.some (e, params))
    (hrej : acc.accept (route_locales_of e.locales) = false) :
    parse_with_accepted_locales (fuel + 1) (.mk entries) path acc dec qs = none := by
  simp only [parse_with_accepted_locales, hsel, hrej]
  rfl

/-- Witness for C2's amended theorem at a concrete input: the `fr` entry of
`subAB` is selected for path `x`, rejected under accepted locales `[en]`,
and the parse is `None`. -/
theorem locale_rejection_aborts_witness :
    selectEntry subAB.entries (requestSegs "x".data) =
      Option.some
        (RouterEntry.mk 0 (RoutePath.mk [.static "x".data] none false)
          ["fr".data] [] none, []) ∧
    (AcceptedLocales.some ["en".data]).accept (route_locales_of ["fr".data]) = false ∧
    parse_with_accepted_locales 1 (.mk subAB.entries) "x".data
      (.some ["en".data]) false [] = none :=
  ⟨rfl, rfl,
    locale_rejection_aborts 0 subAB.entries "x".data (.some ["en".data]) false []
      (RouterEntry.mk 0 (RoutePath.mk [.static "x".data] none false) ["fr".data] [] none)
      [] rfl rfl⟩

end Chemin

namespace Chemin

/-- A missing mandatory query parameter fails the whole field resolution. -/
theorem resolve_query_params_mandatory_absent (qs : QStringPairs)
    (l : List QueryParamSpec) (spec : QueryParamSpec)
    (hmem : spec ∈ l) (hmode : spec.mode = .mandatory)
    (habs : qstring_get qs spec.name = none) :
    resolve_query_params qs l = none := by
  induction l with
  | nil => cases hmem
  | cons hd tl ih =>
    cases hmem with
    | head => simp [resolve_query_params, habs, hmode]
    | tail _ hmem =>
      have htl := ih hmem
      simp only [resolve_query_params]
      rcases h : qstring_get qs hd.name with _ | raw
      · cases hm : hd.mode <;> simp [h, hm, htl]
      · cases hp : hd.parse_field raw <;> simp [h, hp, htl]

/-- A present query value that fails the field's textual parse fails the
whole field resolution. -/
theorem resolve_query_params_parse_failure (qs : QStringPairs)
    (l : List QueryParamSpec) (spec : QueryParamSpec) (raw : Str)
    (hmem : spec ∈ l) (hraw : qstring_get qs spec.name = Option.some raw)
    (hfail : spec.parse_field raw = none) :
    resolve_query_params qs l = none := by
  induction l with
  | nil => cases hmem
  | cons hd tl ih =>
    cases hmem with
    | head => simp [resolve_query_params, hraw, hfail]
    | tail _ hmem =>
      have htl := ih hmem
      simp only [resolve_query_params]
      rcases h : qstring_get qs hd.name with _ | raw'
      · cases hm : hd.mode <;> simp [h, hm, htl]
      · cases hp : hd.parse_field raw' <;> simp [h, hp, htl]

/-- Failed query-parameter resolution fails the selected entry's match,
whatever the locale check, the path parameters or the sub-route parse do. -/
theorem parse_fails_on_query_resolution (fuel : Nat) (entries : List RouterEntry)
    (path : Str) (acc : AcceptedLocales) (dec : Bool) (qs : QStringPairs)
    (e : RouterEntry) (params : Params)
    (hsel : selectEntry entries (requestSegs path) = Option.some (e, params))
    (hres : resolve_query_params qs e.query_params = none) :
    parse_with_accepted_locales (fuel + 1) (.mk entries) path acc dec qs = none := by
  simp only [parse_with_accepted_locales, hsel]
  by_cases hacc : acc.accept (route_locales_of e.locales) = true
  · simp only [hacc, if_true]
    rcases hsr : e.path.sub_route with _ | sr <;> simp only [hsr]
    · rcases hf : build_fields e.path params dec with _ | fs <;> simp [hf, hres]
    · rcases hsub : e.sub with _ | sub_router
      · simp [hsub]
      · simp only [hsub]
        rcases hrec : parse_with_accepted_locales fuel sub_router
            ((params_find params (sub_route_name sr)).getD [])
            (acc.accepted_locales_for_sub_route (route_locales_of e.locales)) dec qs
          with _ | pair
        · simp [hrec]
        · obtain ⟨sub_value, sls⟩ := pair
          simp only [hrec]
          rcases hf : build_fields e.path params dec with _ | fs <;> simp [hf, hres]
  · simp [Bool.not_eq_true] at hacc
    simp [hacc]

/-- C3: once the recognizer selects a table entry, a mandatory query
parameter missing from the query string fails the whole parse — even when
the path and any sub-route would parse successfully — and a present query
value that fails the field's textual-parse contract likewise fails the
whole parse. -/
theorem mandatory_query_param_gate :
    (∀ fuel entries path acc dec qs e params spec,
      selectEntry entries (requestSegs path) = Option.some (e, params) →
      spec ∈ e.query_params → spec.mode = .mandatory →
      qstring_get qs spec.name = none →
      parse_with_accepted_locales (fuel + 1) (.mk entries) path acc dec qs = none) ∧
    (∀ fuel entries path acc dec qs e params spec raw,
      selectEntry entries (requestSegs path) = Option.some (e, params) →
      spec ∈ e.query_params →
      qstring_get qs spec.name = Option.some raw →
      spec.parse_field raw = none →
      parse_with_accepted_locales (fuel + 1) (.mk entries) path acc dec qs = none) := by
  constructor
  · intro fuel entries path acc dec qs e params spec hsel hmem hmode habs
    exact parse_fails_on_query_resolution fuel entries path acc dec qs e params hsel
      (resolve_query_params_mandatory_absent qs e.query_params spec hmem hmode habs)
  · intro fuel entries path acc dec qs e params spec raw hsel hmem hraw hfail
    exact parse_fails_on_query_resolution fuel entries path acc dec qs e params hsel
      (resolve_query_params_parse_failure qs e.query_params spec raw hmem hraw hfail)

/-- Witness for C3 at the specification's sub-route/query scenario: for the
request path `/x/a/b` (whose sub-route capture `a/b` parses successfully)
with an empty query string, the mandatory parameter `q` is absent and the
parse is `None`. -/
theorem mandatory_query_param_gate_witness :
    selectEntry parentQ.entries (requestSegs "/x/a/b".data) =
      Option.some (qEntry, [("rest".data, "a/b".data)]) ∧
    qSpec ∈ qEntry.query_params ∧
    qSpec.mode = .mandatory ∧
    qstring_get [] qSpec.name = none ∧
    parse_with_accepted_locales 2 (.mk parentQ.entries) "/x/a/b".data
      AcceptedLocales.any false [] = none ∧
    parse 2 parentQ "/x/a/b?q=1".data false =
      Option.some
        (RouteValue.mk 0 [] [("q".data, Option.some "1".data)]
          (Option.some (RouteValue.mk 0 [] [] none)), []) :=
  ⟨rfl, List.mem_singleton.mpr rfl, rfl, rfl,
    mandatory_query_param_gate.1 1 parentQ.entries "/x/a/b".data AcceptedLocales.any
      false [] qEntry [("rest".data, "a/b".data)] qSpec rfl
      (List.mem_singleton.mpr rfl) rfl rfl,
    rfl⟩

end Chemin

namespace Chemin

/-- One-step unfolding of `splitChar` on a cons cell. -/
theorem splitChar_cons (sep c : Char) (cs : Str) :
    splitChar sep (c :: cs) =
      match splitChar sep cs with
      | [] => [[]]
      | h :: t => if c = sep then [] :: h :: t else (c :: h) :: t := rfl

/-- Splitting always yields at least one piece. -/
theorem splitChar_ne_nil (c : Char) (l : Str) : splitChar c l ≠ [] := by
  cases l with
  | nil => simp [splitChar]
  | cons x xs =>
    simp only [splitChar]
    rcases h : splitChar c xs with _ | ⟨h1, t⟩
    · simp
    · by_cases hx : x = c <;> simp [hx]

/-- Only the empty text splits into the single empty piece. -/
theorem splitChar_cons_ne_single_nil (c x : Char) (xs : Str) :
    splitChar c (x :: xs) ≠ [[]] := by
  simp only [splitChar]
  rcases h : splitChar c xs with _ | ⟨h1, t⟩
  · exact absurd h (splitChar_ne_nil c xs)
  · by_cases hx : x = c <;> simp [hx]

/-- Text ending in the separator splits with an empty last piece. -/
theorem splitChar_getLast_of_ends (c : Char) (l : Str)
    (h : l.getLast? = Option.some c) :
    (splitChar c l).getLast? = Option.some [] := by
  induction l with
  | nil => simp at h
  | cons x xs ih =>
    cases xs with
    | nil =>
      simp at h
      subst h
      simp [splitChar]
    | cons y ys =>
      have h' : (y :: ys).getLast? = Option.some c := by
        rwa [List.getLast?_cons_cons] at h
      have ihh := ih h'
      rw [splitChar_cons]
      rcases hs : splitChar c (y :: ys) with _ | ⟨h1, t⟩
      · exact absurd hs (splitChar_ne_nil c (y :: ys))
      · rw [hs] at ihh
        by_cases hx : x = c
        · simpa [hx, List.getLast?_cons_cons] using ihh
        · cases t with
          | nil =>
            simp at ihh
            subst ihh
            exact absurd hs (splitChar_cons_ne_single_nil c y ys)
          | cons t1 ts =>
            rw [List.getLast?_cons_cons] at ihh
            simpa [hx, List.getLast?_cons_cons] using ihh

/-- Non-empty text not ending in the separator splits with a non-empty last
piece. -/
theorem splitChar_getLast_of_not_ends (c : Char) (l : Str) :
    l ≠ [] → l.getLast? ≠ Option.some c →
    ∃ t, (splitChar c l).getLast? = Option.some t ∧ t ≠ [] := by
  induction l with
  | nil => intro h _; exact absurd rfl h
  | cons x xs ih =>
    intro _ h
    cases xs with
    | nil =>
      have hx : x ≠ c := by simpa using h
      exact ⟨[x], by simp [splitChar, hx], by simp⟩
    | cons y ys =>
      have h' : (y :: ys).getLast? ≠ Option.some c := by
        rwa [List.getLast?_cons_cons] at h
      obtain ⟨t', ht', htne⟩ := ih (by simp) h'
      rw [splitChar_cons]
      rcases hs : splitChar c (y :: ys) with _ | ⟨h1, tl⟩
      · exact absurd hs (splitChar_ne_nil c (y :: ys))
      · rw [hs] at ht'
        by_cases hx : x = c
        · refine ⟨t', ?_, htne⟩
          simpa [hx, List.getLast?_cons_cons] using ht'
        · cases tl with
          | nil =>
            simp at ht'
            exact ⟨x :: h1, by simp [hx], by simp⟩
          | cons t1 ts =>
            refine ⟨t', ?_, htne⟩
            rw [List.getLast?_cons_cons] at ht'
            simpa [hx, List.getLast?_cons_cons] using ht'

end Chemin

namespace Chemin

/-- A pattern whose final fixed segment is the empty static text (the
encoding of a trailing slash) only matches requests whose last segment is
empty. -/
theorem matchSegs_trailing_empty (ps : List Seg) (segs : List Str) (r : Params)
    (h : matchSegs (ps ++ [Seg.static []]) segs = Option.some r) :
    segs.getLast? = Option.some [] := by
  induction ps generalizing segs r with
  | nil =>
    cases segs with
    | nil => simp [matchSegs] at h
    | cons s rest =>
      simp only [List.nil_append, matchSegs] at h
      by_cases hs : s = []
      · subst hs
        cases rest with
        | nil => simp
        | cons a b => simp [matchSegs] at h
      · simp [hs] at h
  | cons p ps' ih =>
    cases segs with
    | nil => cases p <;> simp [matchSegs] at h
    | cons s rest =>
      cases p with
      | static v =>
        simp only [List.cons_append, matchSegs] at h
        by_cases hs : s = v
        · have hlast := ih rest r (by simpa [hs] using h)
          cases rest with
          | nil => simp at hlast
          | cons a b => rwa [List.getLast?_cons_cons]
        · simp [hs] at h
      | param n =>
        simp only [List.cons_append, matchSegs] at h
        by_cases hs : s = []
        · simp [hs] at h
        · simp only [hs, if_false] at h
          obtain ⟨r', hr', _⟩ := Option.map_eq_some'.mp h
          have hlast := ih rest r' hr'
          cases rest with
          | nil => simp at hlast
          | cons a b => rwa [List.getLast?_cons_cons]

/-- A pattern without a trailing-slash segment, whose static texts are all
non-empty, never matches a request whose last segment is empty. -/
theorem matchSegs_last_nonempty (ss : List Seg) (segs : List Str) (r : Params)
    (hstat : ∀ v, Seg.static v ∈ ss → v ≠ [])
    (h : matchSegs ss segs = Option.some r) :
    segs.getLast? ≠ Option.some [] := by
  induction ss generalizing segs r with
  | nil =>
    cases segs with
    | nil => simp
    | cons s rest => simp [matchSegs] at h
  | cons p ps ih =>
    cases segs with
    | nil => cases p <;> simp [matchSegs] at h
    | cons s rest =>
      cases p with
      | static v =>
        simp only [matchSegs] at h
        by_cases hs : s = v
        · have hv : v ≠ [] := hstat v (List.mem_cons_self _ _)
          have h' : matchSegs ps rest = Option.some r := by simpa [hs] using h
          cases rest with
          | nil => simpa [hs] using hv
          | cons a b =>
            rw [List.getLast?_cons_cons]
            exact ih (a :: b) r (fun w hw => hstat w (List.mem_cons_of_mem _ hw)) h'
        · simp [hs] at h
      | param n =>
        simp only [matchSegs] at h
        by_cases hs : s = []
        · simp [hs] at h
        · simp only [hs, if_false] at h
          obtain ⟨r', hr', _⟩ := Option.map_eq_some'.mp h
          cases rest with
          | nil => simpa using hs
          | cons a b =>
            rw [List.getLast?_cons_cons]
            exact ih (a :: b) r' (fun w hw => hstat w (List.mem_cons_of_mem _ hw)) hr'

/-- Static recognizer segments come from static path components. -/
theorem componentSegs_static_mem (comps : List PathComponent) (i : Nat) (v : Str)
    (h : Seg.static v ∈ componentSegs comps i) :
    PathComponent.static v ∈ comps := by
  induction comps generalizing i with
  | nil => cases h
  | cons c rest ih =>
    cases c with
    | static w =>
      simp only [componentSegs] at h
      rcases List.mem_cons.mp h with heq | hmem
      · cases heq
        exact List.mem_cons_self _ _
      · exact List.mem_cons_of_mem _ (ih _ hmem)
    | param n =>
      simp only [componentSegs] at h
      rcases List.mem_cons.mp h with heq | hmem
      · cases heq
      · exact List.mem_cons_of_mem _ (ih _ hmem)

end Chemin

namespace Chemin

/-- Dropping a leading non-slash character is the identity. -/
theorem stripLeadingSlash_cons_ne (c : Char) (rest : Str) (h : c ≠ '/') :
    stripLeadingSlash (c :: rest) = c :: rest := by
  rw [stripLeadingSlash.eq_def]
  split
  · next heq =>
    injection heq with h1 _
    exact absurd h1 h
  · rfl

/-- C8 counterexample: the root pattern (no components, trailing slash
required) structurally matches the empty request path, which does not end
in `/` — so a trailing-slash pattern does match a path lacking the trailing
slash, and the full parse succeeds on it. -/
theorem trailing_slash_counterexample :
    recognize (RoutePath.mk [] none true) (requestSegs "".data) = Option.some [] ∧
    ("".data : Str).getLast? ≠ Option.some '/' ∧
    parse 1 rootRouter "".data true =
      Option.some (RouteValue.mk 0 [] [] none, []) :=
  ⟨rfl, by decide, rfl⟩

/-- C8 (amended): apart from the empty request path (which the engine
treats as `/`), a pattern without a sub-route capture and with
`trailing_slash = true` never structurally matches a request path that does
not end in `/`; conversely a pattern with `trailing_slash = false` (and
non-empty static texts, as the route grammar guarantees) never structurally
matches a request path that ends in `/`. -/
theorem trailing_slash_exact_match :
    (∀ p url, p.sub_route = none → p.trailing_slash = true → url ≠ [] →
      url.getLast? ≠ Option.some '/' → recognize p (requestSegs url) = none) ∧
    (∀ p url, p.sub_route = none → p.trailing_slash = false →
      (∀ v, PathComponent.static v ∈ p.components → v ≠ []) →
      url.getLast? = Option.some '/' → recognize p (requestSegs url) = none) := by
  constructor
  · intro p url hsr htr hne hlast
    by_contra hmatch
    obtain ⟨r, hr⟩ := Option.ne_none_iff_exists'.mp hmatch
    rw [recognize, hsr] at hr
    simp only [htr, if_true] at hr
    have hempty := matchSegs_trailing_empty _ _ _ hr
    have hcontr : ∃ t, (requestSegs url).getLast? = Option.some t ∧ t ≠ [] := by
      cases url with
      | nil => exact absurd rfl hne
      | cons c rest =>
        by_cases hc : c = '/'
        · subst hc
          cases rest with
          | nil => exact absurd (by decide) hlast
          | cons y ys =>
            have hrest : (y :: ys).getLast? ≠ Option.some '/' := by
              rwa [List.getLast?_cons_cons] at hlast
            have : requestSegs ('/' :: y :: ys) = splitChar '/' (y :: ys) := rfl
            rw [this]
            exact splitChar_getLast_of_not_ends '/' (y :: ys) (by simp) hrest
        · have : requestSegs (c :: rest) = splitChar '/' (c :: rest) := by
            unfold requestSegs
            rw [stripLeadingSlash_cons_ne c rest hc]
          rw [this]
          exact splitChar_getLast_of_not_ends '/' (c :: rest) (by simp) hlast
    obtain ⟨t, ht, htne⟩ := hcontr
    rw [hempty] at ht
    exact htne (Option.some.inj ht).symm
  · intro p url hsr htr hstat hlast
    by_contra hmatch
    obtain ⟨r, hr⟩ := Option.ne_none_iff_exists'.mp hmatch
    rw [recognize, hsr] at hr
    simp only [htr, Bool.false_eq_true, if_false, List.append_nil] at hr
    have hnonempty := matchSegs_last_nonempty _ _ r
      (fun v hv => hstat v (componentSegs_static_mem p.components 0 v hv)) hr
    apply hnonempty
    cases url with
    | nil => simp at hlast
    | cons c rest =>
      by_cases hc : c = '/'
      · subst hc
        cases rest with
        | nil => rfl
        | cons y ys =>
          have hrest : (y :: ys).getLast? = Option.some '/' := by
            rwa [List.getLast?_cons_cons] at hlast
          have : requestSegs ('/' :: y :: ys) = splitChar '/' (y :: ys) := rfl
          rw [this]
          exact splitChar_getLast_of_ends '/' (y :: ys) hrest
      · have : requestSegs (c :: rest) = splitChar '/' (c :: rest) := by
          unfold requestSegs
          rw [stripLeadingSlash_cons_ne c rest hc]
        rw [this]
        exact splitChar_getLast_of_ends '/' (c :: rest) hlast

/-- Witness for C8's amended theorem at concrete inputs: the pattern
`/about/` does not match `/about`, and the pattern `/about` does not match
`/about/`. -/
theorem trailing_slash_exact_match_witness :
    recognize (RoutePath.mk [.static "about".data] none true)
      (requestSegs "/about".data) = none ∧
    recognize (RoutePath.mk [.static "about".data] none false)
      (requestSegs "/about/".data) = none :=
  ⟨trailing_slash_exact_match.1 (RoutePath.mk [.static "about".data] none true)
      "/about".data rfl rfl (by decide) (by decide),
    trailing_slash_exact_match.2 (RoutePath.mk [.static "about".data] none false)
      "/about/".data rfl rfl
      (by intro v hv; simp at hv; subst hv; decide) (by decide)⟩

end Chemin

namespace Chemin

/-- The localized route selected for generation is one of the candidates. -/
theorem select_localized_mem (locale : Option Locale) (es : List RouterEntry)
    (e : RouterEntry) (h : select_localized locale es = Option.some e) : e ∈ es := by
  induction es with
  | nil => cases h
  | cons x xs ih =>
    simp only [select_localized] at h
    by_cases hx : locale_matches_arm locale x.locales = true
    · rw [if_pos hx] at h
      exact (Option.some.inj h) ▸ List.mem_cons_self _ _
    · rw [if_neg hx] at h
      exact List.mem_cons_of_mem _ (ih h)

/-- Rendering a non-empty component list yields text starting with `/`. -/
theorem render_components_head (c : PathComponent) (rest : List PathComponent)
    (i : Nat) (fields : List (Str × Str)) (enc : Bool) :
    ∃ t, render_components (c :: rest) i fields enc = '/' :: t := by
  cases c <;> exact ⟨_, rfl⟩

/-- C10: for every well-formed compiled table, every route value, every
optional target locale and either encoding flag, whenever `generate_url`
returns a URL the URL is non-empty and begins with `/` — the invariant the
generator relies on when it concatenates a parent path directly with a
recursively generated sub-route URL. -/
theorem generate_url_head_slash :
    ∀ (fuel : Nat) (r : Router) (v : RouteValue) (locale : Option Locale)
      (enc : Bool) (s : Str), WFRouter r →
      generate_url fuel r v locale enc = Option.some s →
      s ≠ [] ∧ s.head? = Option.some '/' := by
  intro fuel
  induction fuel with
  | zero =>
    intro r v locale enc s _ h
    cases r with
    | mk entries =>
      cases v with
      | mk vi fields qf sub => simp [generate_url] at h
  | succ fuel ih =>
    intro r v locale enc s hwf h
    cases r with
    | mk entries =>
      cases v with
      | mk vi fields qf sub =>
        simp only [generate_url] at h
        split at h
        · cases h
        · next e hsel =>
          have hmem : e ∈ entries :=
            (List.mem_filter.mp (select_localized_mem _ _ _ hsel)).1
          cases hwf with
          | mk _ hwfnd hwfsub =>
            have hnd := hwfnd e hmem
            have hsub := hwfsub e hmem
            split at h
            · next hsr =>
              have hs := Option.some.inj h
              rcases hcomps : e.path.components with _ | ⟨c, crest⟩
              · have htr : e.path.trailing_slash = true := by
                  rcases hnd with hc | hrs | ht
                  · exact absurd hcomps hc
                  · rw [hsr] at hrs
                    cases hrs
                  · exact ht
                rw [hcomps, htr] at hs
                simp only [render_components, if_true, List.nil_append] at hs
                subst hs
                exact ⟨by simp, rfl⟩
              · rw [hcomps] at hs
                obtain ⟨t, ht⟩ := render_components_head c crest 0 fields enc
                rw [ht] at hs
                subst hs
                exact ⟨by simp, rfl⟩
            · next sr hsr =>
              split at h
              · next =>
                rename_i sub_value sub_router hes
                obtain ⟨su, hsu, hs⟩ := Option.map_eq_some'.mp h
                obtain ⟨hsune, hsuhead⟩ :=
                  ih sub_router sub_value locale enc su (hsub sub_router hes) hsu
                rcases hcomps : e.path.components with _ | ⟨c, crest⟩
                · rw [hcomps] at hs
                  simp only [render_components, List.nil_append] at hs
                  subst hs
                  constructor
                  · simp [List.append_eq_nil, hsune]
                  · rcases su with _ | ⟨a, su'⟩
                    · exact absurd rfl hsune
                    · simpa using hsuhead
                · rw [hcomps] at hs
                  obtain ⟨t, ht⟩ := render_components_head c crest 0 fields enc
                  rw [ht] at hs
                  subst hs
                  exact ⟨by simp, rfl⟩
              · next hne =>
                cases h

/-- Witness for C10 at a concrete input: the `en`/`fr` table is well-formed
and the URL generated for `Hello("John")` under `en` is non-empty and
begins with `/`. -/
theorem generate_url_head_slash_witness :
    WFRouter helloRouter ∧
    generate_url 1 helloRouter
      (.mk 0 [(unnamed_param_name 0, "John".data)] [] none)
      (Option.some "en".data) false = Option.some "/hello/John".data ∧
    "/hello/John".data ≠ [] ∧ "/hello/John".data.head? = Option.some '/' := by
  have hwf : WFRouter helloRouter := by
    refine WFRouter.mk _ ?_ ?_
    · intro e he
      rcases List.mem_cons.mp he with heq | he'
      · subst heq
        exact Or.inl (by decide)
      · rcases List.mem_cons.mp he' with heq | he''
        · subst heq
          exact Or.inl (by decide)
        · cases he''
    · intro e he sr hsr
      rcases List.mem_cons.mp he with heq | he'
      · subst heq
        cases hsr
      · rcases List.mem_cons.mp he' with heq | he''
        · subst heq
          cases hsr
        · cases he''
  refine ⟨hwf, rfl, ?_⟩
  exact generate_url_head_slash 1 helloRouter
    (.mk 0 [(unnamed_param_name 0, "John".data)] [] none)
    (Option.some "en".data) false "/hello/John".data hwf rfl

end Chemin

namespace Chemin

/-- Text free of the separator splits into a single piece. -/
theorem splitChar_of_not_mem (c : Char) (l : Str) (h : c ∉ l) :
    splitChar c l = [l] := by
  induction l with
  | nil => rfl
  | cons x xs ih =>
    rw [splitChar_cons, ih (fun hm => h (List.mem_cons_of_mem _ hm))]
    have hx : ¬x = c := fun he => h (he ▸ List.mem_cons_self _ _)
    simp [hx]

/-- Splitting text with exactly one separator occurrence yields the two
surrounding pieces. -/
theorem splitChar_slash_mid (pre s : Str) (hp : '/' ∉ pre) (hs : '/' ∉ s) :
    splitChar '/' (pre ++ '/' :: s) = [pre, s] := by
  induction pre with
  | nil =>
    rw [List.nil_append, splitChar_cons, splitChar_of_not_mem '/' s hs]
    simp
  | cons p ps ih =>
    have hp' : '/' ∉ ps := fun hm => hp (List.mem_cons_of_mem _ hm)
    have hpne : ¬p = '/' := fun he => hp (he ▸ List.mem_cons_self _ _)
    rw [List.cons_append, splitChar_cons, ih hp']
    simp [hpne]

end Chemin

namespace Chemin

/-- C1 counterexample: the round-trip fails at concrete inputs in every way
the original universal claim can fail — (i) the value `Hello("")` has a
qualifying `en` path and generates `/hello/` under either flag, but parsing
`/hello/` back is `None`; (ii) with encoding off, a parameter text
containing `/` generates a URL that no longer re-parses; (iii) a sub-route
whose own URL is just `/` generates `/sub/`, whose empty capture region
fails the re-parse; (iv) a case with a mandatory query parameter generates
a URL without the query string, which fails the re-parse; (v) two cases
sharing the pattern `/x` make the second case's generated URL re-parse to
the first case's value, which is not structurally equal. -/
theorem roundtrip_counterexample :
    (generate_url 1 helloRouter (RouteValue.mk 0 [(unnamed_param_name 0, [])] [] none)
        (Option.some "en".data) true = Option.some "/hello/".data ∧
      generate_url 1 helloRouter (RouteValue.mk 0 [(unnamed_param_name 0, [])] [] none)
        (Option.some "en".data) false = Option.some "/hello/".data ∧
      parse 1 helloRouter "/hello/".data true = none ∧
      parse 1 helloRouter "/hello/".data false = none) ∧
    (generate_url 1 helloRouter
        (RouteValue.mk 0 [(unnamed_param_name 0, "Jo/hn".data)] [] none)
        (Option.some "en".data) false = Option.some "/hello/Jo/hn".data ∧
      parse 1 helloRouter "/hello/Jo/hn".data false = none) ∧
    (generate_url 2 subLossRouter
        (RouteValue.mk 0 [] [] (Option.some (RouteValue.mk 0 [] [] none)))
        (Option.some "en".data) false = Option.some "/sub/".data ∧
      parse 2 subLossRouter "/sub/".data false = none) ∧
    (generate_url 1 qGenRouter
        (RouteValue.mk 0 [] [("q".data, Option.some "1".data)] none)
        (Option.some "en".data) false = Option.some "/x".data ∧
      parse 1 qGenRouter "/x".data false = none) ∧
    (generate_url 1 ambRouter (RouteValue.mk 1 [] [] none)
        (Option.some "en".data) false = Option.some "/x".data ∧
      parse 1 ambRouter "/x".data false =
        Option.some (RouteValue.mk 0 [] [] none, []) ∧
      RouteValue.mk 0 [] [] none ≠ RouteValue.mk 1 [] [] none) :=
  ⟨⟨rfl, rfl, rfl, rfl⟩, ⟨rfl, rfl⟩, ⟨rfl, rfl⟩, ⟨rfl, rfl⟩,
    ⟨rfl, rfl, fun h => by
      injection h with h1 _ _ _
      exact absurd h1 (by decide)⟩⟩

end Chemin

namespace Chemin

/-- Splitting text that begins with a separator-free piece followed by the
separator peels off that piece. -/
theorem splitChar_append_cons (c : Char) (t r : Str) (h : c ∉ t) :
    splitChar c (t ++ c :: r) = t :: splitChar c r := by
  induction t with
  | nil =>
    rw [List.nil_append, splitChar_cons]
    rcases hs : splitChar c r with _ | ⟨h1, tl⟩
    · exact absurd hs (splitChar_ne_nil c r)
    · simp
  | cons x xs ih =>
    have hx : ¬x = c := fun he => h (he ▸ List.mem_cons_self _ _)
    rw [List.cons_append, splitChar_cons, ih (fun hm => h (List.mem_cons_of_mem _ hm))]
    simp [hx]

/-- Splitting the rendered components (prefixed by one already-peeled
segment text) yields exactly the rendered segment texts, plus an empty
final segment for a trailing slash. -/
theorem splitChar_render_tail (b : Bool) (fields : List (Str × Str)) (trail : Str)
    (htrail : trail = [] ∨ trail = ['/']) :
    ∀ (comps : List PathComponent) (i : Nat) (t0 : Str),
      (∀ t ∈ renderTexts comps i fields b, '/' ∉ t) → '/' ∉ t0 →
      splitChar '/' (t0 ++ (render_components comps i fields b ++ trail)) =
        (t0 :: renderTexts comps i fields b) ++ (if trail = [] then [] else [[]]) := by
  intro comps
  induction comps with
  | nil =>
    intro i t0 _ ht0
    rcases htrail with h | h <;> subst h
    · simp only [render_components, renderTexts, List.nil_append, List.append_nil]
      rw [splitChar_of_not_mem '/' t0 ht0]
      simp
    · simp only [render_components, renderTexts, List.nil_append]
      rw [splitChar_append_cons '/' t0 [] ht0]
      simp [splitChar]
  | cons c cs ih =>
    intro i t0 hall ht0
    cases c with
    | static v =>
      have hv : '/' ∉ v := hall v (by simp [renderTexts])
      have hrest : ∀ t ∈ renderTexts cs i fields b, '/' ∉ t := fun t ht =>
        hall t (by simp [renderTexts, ht])
      rw [show t0 ++ (render_components (PathComponent.static v :: cs) i fields b ++ trail) =
          t0 ++ '/' :: (v ++ (render_components cs i fields b ++ trail)) from by
        simp [render_components, List.append_assoc]]
      rw [splitChar_append_cons '/' t0 _ ht0, ih i v hrest hv]
      simp [renderTexts]
    | param n =>
      have hv : '/' ∉ (if b then encode_param ((params_find fields (param_name n i)).getD [])
          else (params_find fields (param_name n i)).getD []) := hall _ (by simp [renderTexts])
      have hrest : ∀ t ∈ renderTexts cs (i + 1) fields b, '/' ∉ t := fun t ht =>
        hall t (by simp [renderTexts, ht])
      rw [show t0 ++ (render_components (PathComponent.param n :: cs) i fields b ++ trail) =
          t0 ++ '/' ::
            ((if b then encode_param ((params_find fields (param_name n i)).getD [])
              else (params_find fields (param_name n i)).getD []) ++
              (render_components cs (i + 1) fields b ++ trail)) from by
        simp [render_components, List.append_assoc]]
      rw [splitChar_append_cons '/' t0 _ ht0, ih (i + 1) _ hrest hv]
      simp [renderTexts]

/-- The request segments of a rendered URL (non-empty component list) are
exactly the rendered segment texts, plus an empty final segment for a
trailing slash. -/
theorem requestSegs_render (b : Bool) (fields : List (Str × Str)) (trail : Str)
    (htrail : trail = [] ∨ trail = ['/'])
    (c : PathComponent) (cs : List PathComponent) (i : Nat)
    (hall : ∀ t ∈ renderTexts (c :: cs) i fields b, '/' ∉ t) :
    requestSegs (render_components (c :: cs) i fields b ++ trail) =
      renderTexts (c :: cs) i fields b ++ (if trail = [] then [] else [[]]) := by
  cases c with
  | static v =>
    have hv : '/' ∉ v := hall v (by simp [renderTexts])
    have hrest : ∀ t ∈ renderTexts cs i fields b, '/' ∉ t := fun t ht =>
      hall t (by simp [renderTexts, ht])
    have hstep : requestSegs (render_components (PathComponent.static v :: cs) i fields b
        ++ trail) = splitChar '/' (v ++ (render_components cs i fields b ++ trail)) := by
      show splitChar '/' (stripLeadingSlash _) = _
      congr 1
      show stripLeadingSlash ('/' :: ((v ++ render_components cs i fields b) ++ trail)) = _
      rw [stripLeadingSlash, List.append_assoc]
    rw [hstep, splitChar_render_tail b fields trail htrail cs i v hrest hv]
    simp [renderTexts]
  | param n =>
    have hv : '/' ∉ (if b then encode_param ((params_find fields (param_name n i)).getD [])
        else (params_find fields (param_name n i)).getD []) := hall _ (by simp [renderTexts])
    have hrest : ∀ t ∈ renderTexts cs (i + 1) fields b, '/' ∉ t := fun t ht =>
      hall t (by simp [renderTexts, ht])
    have hstep : requestSegs (render_components (PathComponent.param n :: cs) i fields b
        ++ trail) = splitChar '/'
          ((if b then encode_param ((params_find fields (param_name n i)).getD [])
            else (params_find fields (param_name n i)).getD []) ++
            (render_components cs (i + 1) fields b ++ trail)) := by
      show splitChar '/' (stripLeadingSlash _) = _
      congr 1
      show stripLeadingSlash ('/' ::
          (((if b then encode_param ((params_find fields (param_name n i)).getD [])
            else (params_find fields (param_name n i)).getD []) ++
            render_components cs (i + 1) fields b) ++ trail)) = _
      rw [stripLeadingSlash, List.append_assoc]
    rw [hstep, splitChar_render_tail b fields trail htrail cs (i + 1) _ hrest hv]
    simp [renderTexts]

end Chemin

namespace Chemin

/-- The fold underlying `pickBest` returns one of its inputs. -/
theorem foldl_pick_mem (cs : List (RouterEntry × Params)) (acc : RouterEntry × Params) :
    cs.foldl (fun best x => if rankGt (pathRank x.1.path) (pathRank best.1.path) then x
      else best) acc ∈ acc :: cs := by
  induction cs generalizing acc with
  | nil => simp
  | cons z zs ih =>
    simp only [List.foldl_cons]
    rcases List.mem_cons.mp
        (ih (if rankGt (pathRank z.1.path) (pathRank acc.1.path) then z else acc)) with
      heq | hmem
    · by_cases hc : rankGt (pathRank z.1.path) (pathRank acc.1.path) = true
      · rw [heq, if_pos hc]
        exact List.mem_cons_of_mem _ (List.mem_cons_self _ _)
      · rw [heq, if_neg hc]
        exact List.mem_cons_self _ _
    · exact List.mem_cons_of_mem _ (List.mem_cons_of_mem _ hmem)

/-- `pickBest` returns one of the candidates. -/
theorem pickBest_mem (l : List (RouterEntry × Params)) (x : RouterEntry × Params)
    (h : pickBest l = Option.some x) : x ∈ l := by
  cases l with
  | nil => cases h
  | cons c cs =>
    simp only [pickBest] at h
    exact (Option.some.inj h) ▸ foldl_pick_mem cs c

/-- The entry `selectEntry` resolves a request to structurally matches it,
with exactly the returned bindings. -/
theorem selectEntry_sound (entries : List RouterEntry) (segs : List Str)
    (e : RouterEntry) (ps : Params)
    (h : selectEntry entries segs = Option.some (e, ps)) :
    recognize e.path segs = Option.some ps := by
  have hmem := pickBest_mem _ _ h
  obtain ⟨a, _, hfa⟩ := List.mem_filterMap.mp hmem
  obtain ⟨q, hq, heq⟩ := Option.map_eq_some'.mp hfa
  injection heq with h1 h2
  subst h1
  subst h2
  exact hq

/-- Looking up a present key in an association list with distinct keys
returns that key's value. -/
theorem params_find_eq_of_mem (ps : Params) (n : Str) (t : Str)
    (hnodup : (ps.map Prod.fst).Nodup) (hmem : (n, t) ∈ ps) :
    params_find ps n = Option.some t := by
  induction ps with
  | nil => cases hmem
  | cons hd tl ih =>
    rcases List.mem_cons.mp hmem with heq | hmem'
    · subst heq
      simp [params_find, List.find?_cons_of_pos]
    · have hkey : ¬hd.1 = n := by
        intro he
        have hn : n ∈ tl.map Prod.fst := List.mem_map.mpr ⟨(n, t), hmem', rfl⟩
        rw [List.map_cons] at hnodup
        exact (List.nodup_cons.mp hnodup).1 (he ▸ hn)
      have htl := ih (List.nodup_cons.mp (by rwa [List.map_cons] at hnodup)).2 hmem'
      simp only [params_find, List.find?] at htl ⊢
      have hbeq : (hd.1 == n) = false := by
        simpa using hkey
      rw [hbeq]
      exact htl

/-- A successful lookup returns a pair of the list. -/
theorem params_find_mem (ps : Params) (n t : Str)
    (h : params_find ps n = Option.some t) : (n, t) ∈ ps := by
  obtain ⟨pair, hfind, hsnd⟩ := Option.map_eq_some'.mp h
  have hpred := List.find?_some hfind
  have hmem := List.mem_of_find?_eq_some hfind
  have h1 : pair.1 = n := by simpa using hpred
  have : pair = (n, t) := by
    cases pair
    simp only at h1 hsnd
    rw [h1, hsnd]
  rwa [this] at hmem

/-- Every key of a length-matched zip has a paired value. -/
theorem mem_zip_of_mem_left :
    ∀ (ks vs : List Str), ks.length = vs.length →
      ∀ n ∈ ks, ∃ t, (n, t) ∈ ks.zip vs := by
  intro ks
  induction ks with
  | nil => intro vs _ n hn; cases hn
  | cons k ks' ih =>
    intro vs hlen n hn
    cases vs with
    | nil => simp at hlen
    | cons v vs' =>
      rcases List.mem_cons.mp hn with heq | hmem
      · exact ⟨v, heq ▸ List.mem_cons_self _ _⟩
      · obtain ⟨t, ht⟩ := ih vs' (by simpa using hlen) n hmem
        exact ⟨t, List.mem_cons_of_mem _ ht⟩

/-- Rebuilding every key's looked-up value from a length-matched zip with
successful lookups reproduces the zip. -/
theorem map_lookup_eq_zip (fields : List (Str × Str)) :
    ∀ (ks vs : List Str), ks.length = vs.length →
      (∀ n t, (n, t) ∈ ks.zip vs → params_find fields n = Option.some t) →
      ks.map (fun n => (n, (params_find fields n).getD [])) = ks.zip vs := by
  intro ks
  induction ks with
  | nil => intro vs _ _; rfl
  | cons k ks' ih =>
    intro vs hlen hfind
    cases vs with
    | nil => simp at hlen
    | cons v vs' =>
      have hk := hfind k v (List.mem_cons_self _ _)
      simp only [List.map_cons, List.zip_cons_cons, hk, Option.getD_some]
      rw [ih vs' (by simpa using hlen)
        (fun n t hm => hfind n t (List.mem_cons_of_mem _ hm))]

/-- A pointwise-successful `mapM` over `Option` is the corresponding map. -/
theorem mapM_eq_map (f : Str → Option (Str × Str)) (g : Str → Str × Str) :
    ∀ (names : List Str), (∀ n ∈ names, f n = Option.some (g n)) →
      names.mapM f = Option.some (names.map g) := by
  intro names
  induction names with
  | nil => intro _; rfl
  | cons n ns ih =>
    intro h
    rw [List.mapM_cons, h n (List.mem_cons_self _ _),
      ih (fun m hm => h m (List.mem_cons_of_mem _ hm))]
    rfl

end Chemin

namespace Chemin

/-- Decoding a non-escape character keeps it. -/
theorem decode_param_cons_ne (c : Char) (rest : Str) (h : ¬c = '%') :
    decode_param (c :: rest) = (decode_param rest).map fun t => c :: t := by
  unfold decode_param
  rw [if_neg h]
  exact congrArg _ (decode_param.eq_def rest)

/-- Decoding a well-formed percent escape yields its byte. -/
theorem decode_param_escape (h1 h2 : Char) (rest : Str) (v1 v2 : Nat)
    (hv1 : hexVal h1 = Option.some v1) (hv2 : hexVal h2 = Option.some v2) :
    decode_param ('%' :: h1 :: h2 :: rest) =
      (decode_param rest).map fun t => Char.ofNat (16 * v1 + v2) :: t := by
  unfold decode_param
  rw [if_pos rfl]
  simp only [hv1, hv2]
  exact congrArg _ (decode_param.eq_def rest)

/-- `hexVal` inverts `hexDigit` on one hexadecimal digit. -/
theorem hexVal_hexDigit (m : Nat) (h : m < 16) :
    hexVal (hexDigit m) = Option.some m := by
  interval_cases m <;> decide

/-- One-step unfolding of `encode_param` on a cons cell. -/
theorem encode_param_cons (c : Char) (cs : Str) :
    encode_param (c :: cs) =
      if c.isAlphanum ∨ c = '-' ∨ c = '_' ∨ c = '.' ∨ c = '~' then c :: encode_param cs
      else '%' :: hexDigit (c.toNat / 16) :: hexDigit (c.toNat % 16) :: encode_param cs := rfl

/-- Decoding inverts encoding on byte-sized text (the faithful domain of
the character-level model of the external percent codec). -/
theorem decode_encode (s : Str) (h : ∀ c ∈ s, c.toNat < 256) :
    decode_param (encode_param s) = Option.some s := by
  induction s with
  | nil => rfl
  | cons c cs ih =>
    have hc := h c (List.mem_cons_self _ _)
    have ihh := ih fun c' hc' => h c' (List.mem_cons_of_mem _ hc')
    rw [encode_param_cons]
    by_cases hres : c.isAlphanum ∨ c = '-' ∨ c = '_' ∨ c = '.' ∨ c = '~'
    · rw [if_pos hres]
      have hcne : ¬c = '%' := by
        intro he
        rw [he] at hres
        revert hres
        decide
      rw [decode_param_cons_ne c _ hcne, ihh]
      rfl
    · rw [if_neg hres]
      have hdiv : c.toNat / 16 < 16 := by omega
      have hmod : c.toNat % 16 < 16 := Nat.mod_lt _ (by omega)
      rw [decode_param_escape _ _ _ _ _ (hexVal_hexDigit _ hdiv) (hexVal_hexDigit _ hmod),
        ihh]
      simp only [Option.map_some']
      rw [Nat.div_add_mod c.toNat 16, Char.ofNat_toNat]

/-- Encoding non-empty text is non-empty. -/
theorem encode_param_ne_nil (s : Str) (h : s ≠ []) : encode_param s ≠ [] := by
  cases s with
  | nil => exact absurd rfl h
  | cons c cs =>
    rw [encode_param_cons]
    split <;> simp

/-- Encoded byte-sized text contains neither `/` nor `?` (both get
percent-escaped). -/
theorem encode_param_no_slash_qmark (s : Str) (h : ∀ c ∈ s, c.toNat < 256) :
    '/' ∉ encode_param s ∧ '?' ∉ encode_param s := by
  induction s with
  | nil => exact ⟨by simp [encode_param], by simp [encode_param]⟩
  | cons c cs ih =>
    have hc := h c (List.mem_cons_self _ _)
    obtain ⟨ih1, ih2⟩ := ih fun c' hc' => h c' (List.mem_cons_of_mem _ hc')
    rw [encode_param_cons]
    by_cases hres : c.isAlphanum ∨ c = '-' ∨ c = '_' ∨ c = '.' ∨ c = '~'
    · rw [if_pos hres]
      have hcs : ¬c = '/' ∧ ¬c = '?' := by
        constructor <;> intro he <;> rw [he] at hres <;> revert hres <;> decide
      constructor
      · simp [hcs.1, ih1]
        intro hx
        exact absurd hx.symm hcs.1
      · simp [hcs.2, ih2]
        intro hx
        exact absurd hx.symm hcs.2
    · rw [if_neg hres]
      have hdiv : c.toNat / 16 < 16 := by omega
      have hmod : c.toNat % 16 < 16 := Nat.mod_lt _ (by omega)
      have hd1 : ¬hexDigit (c.toNat / 16) = '/' ∧ ¬hexDigit (c.toNat / 16) = '?' := by
        constructor <;> (revert hdiv; generalize c.toNat / 16 = m; intro hm
                         interval_cases m <;> decide)
      have hd2 : ¬hexDigit (c.toNat % 16) = '/' ∧ ¬hexDigit (c.toNat % 16) = '?' := by
        constructor <;> (revert hmod; generalize c.toNat % 16 = m; intro hm
                         interval_cases m <;> decide)
      constructor
      · simp only [List.mem_cons]
        rintro (hx | hx | hx | hx)
        · revert hx; decide
        · exact hd1.1 hx.symm
        · exact hd2.1 hx.symm
        · exact ih1 hx
      · simp only [List.mem_cons]
        rintro (hx | hx | hx | hx)
        · revert hx; decide
        · exact hd1.2 hx.symm
        · exact hd2.2 hx.symm
        · exact ih2 hx

end Chemin

namespace Chemin

/-- `paramNamesFrom` skips a static component. -/
theorem paramNamesFrom_static (v : Str) (cs : List PathComponent) (i : Nat) :
    paramNamesFrom (.static v :: cs) i = paramNamesFrom cs i := rfl

/-- `paramNamesFrom` records a parameter component's name. -/
theorem paramNamesFrom_param (n : Option Str) (cs : List PathComponent) (i : Nat) :
    paramNamesFrom (.param n :: cs) i = param_name n i :: paramNamesFrom cs (i + 1) := rfl

/-- The keys of the rendered bindings are the pattern's parameter names. -/
theorem renderBindings_keys (b : Bool) (fields : List (Str × Str)) :
    ∀ (comps : List PathComponent) (i : Nat),
      (renderBindings comps i fields b).map Prod.fst = paramNamesFrom comps i := by
  intro comps
  induction comps with
  | nil => intro i; rfl
  | cons c cs ih =>
    intro i
    cases c with
    | static v => simpa [renderBindings, paramNamesFrom, componentSegs] using ih i
    | param n => simpa [renderBindings, paramNamesFrom, componentSegs] using ih (i + 1)

/-- Every rendered binding's text is the rendering of a successfully
looked-up field value. -/
theorem renderBindings_spec (b : Bool) (fields : List (Str × Str)) (texts : List Str) :
    ∀ (comps : List PathComponent) (i : Nat),
      (∀ n ∈ paramNamesFrom comps i, ∃ t, params_find fields n = Option.some t ∧ t ∈ texts) →
      ∀ p ∈ renderBindings comps i fields b, ∃ t, t ∈ texts ∧
        params_find fields p.1 = Option.some t ∧
        p.2 = (if b then encode_param t else t) := by
  intro comps
  induction comps with
  | nil => intro i _ p hp; cases hp
  | cons c cs ih =>
    intro i hfind p hp
    cases c with
    | static v =>
      exact ih i (fun n hn => hfind n (by rwa [paramNamesFrom_static]))
        p (by simpa [renderBindings] using hp)
    | param n =>
      have hhead : param_name n i ∈ paramNamesFrom (PathComponent.param n :: cs) i := by
        rw [paramNamesFrom_param]
        exact List.mem_cons_self _ _
      rcases List.mem_cons.mp hp with heq | hmem
      · obtain ⟨t, hft, hmemt⟩ := hfind (param_name n i) hhead
        refine ⟨t, hmemt, ?_, ?_⟩
        · rw [heq]
          exact hft
        · rw [heq]
          simp [hft]
      · exact ih (i + 1)
          (fun m hm => hfind m (by rw [paramNamesFrom_param]; exact List.mem_cons_of_mem _ hm))
          p hmem

/-- Every rendered segment text is a static text or a binding's text. -/
theorem mem_renderTexts (b : Bool) (fields : List (Str × Str)) :
    ∀ (comps : List PathComponent) (i : Nat), ∀ t ∈ renderTexts comps i fields b,
      PathComponent.static t ∈ comps ∨ ∃ p ∈ renderBindings comps i fields b, t = p.2 := by
  intro comps
  induction comps with
  | nil => intro i t ht; cases ht
  | cons c cs ih =>
    intro i t ht
    cases c with
    | static v =>
      rcases List.mem_cons.mp ht with heq | hmem
      · exact Or.inl (heq ▸ List.mem_cons_self _ _)
      · rcases ih i t hmem with h | ⟨p, hp, hpt⟩
        · exact Or.inl (List.mem_cons_of_mem _ h)
        · exact Or.inr ⟨p, by simpa [renderBindings] using hp, hpt⟩
    | param n =>
      rcases List.mem_cons.mp ht with heq | hmem
      · exact Or.inr ⟨(param_name n i,
          if b then encode_param ((params_find fields (param_name n i)).getD [])
          else (params_find fields (param_name n i)).getD []),
          List.mem_cons_self _ _, heq⟩
      · rcases ih (i + 1) t hmem with h | ⟨p, hp, hpt⟩
        · exact Or.inl (List.mem_cons_of_mem _ h)
        · exact Or.inr ⟨p, List.mem_cons_of_mem _ hp, hpt⟩

/-- The rendered URL body contains no `?` when neither the static texts
nor the rendered binding texts do. -/
theorem render_components_no_qmark (b : Bool) (fields : List (Str × Str)) :
    ∀ (comps : List PathComponent) (i : Nat),
      (∀ v, PathComponent.static v ∈ comps → '?' ∉ v) →
      (∀ p ∈ renderBindings comps i fields b, '?' ∉ p.2) →
      '?' ∉ render_components comps i fields b := by
  intro comps
  induction comps with
  | nil => intro i _ _; simp [render_components]
  | cons c cs ih =>
    intro i hstat hbind
    cases c with
    | static v =>
      simp only [render_components, List.mem_cons, List.mem_append]
      rintro (h | h | h)
      · revert h; decide
      · exact hstat v (List.mem_cons_self _ _) h
      · exact ih i (fun w hw => hstat w (List.mem_cons_of_mem _ hw))
          (fun p hp => hbind p (by simpa [renderBindings] using hp)) h
    | param n =>
      simp only [render_components, List.mem_cons, List.mem_append]
      rintro (h | h | h)
      · revert h; decide
      · exact hbind _ (List.mem_cons_self _ _) h
      · exact ih (i + 1) (fun w hw => hstat w (List.mem_cons_of_mem _ hw))
          (fun p hp => hbind p (List.mem_cons_of_mem _ hp)) h

/-- Matching the compiled fixed segments against the rendered segment texts
succeeds with exactly the rendered bindings. -/
theorem matchSegs_render (b : Bool) (fields : List (Str × Str)) (ts : Bool) :
    ∀ (comps : List PathComponent) (i : Nat),
      (∀ p ∈ renderBindings comps i fields b, p.2 ≠ []) →
      matchSegs (componentSegs comps i ++ (if ts then [Seg.static []] else []))
        (renderTexts comps i fields b ++ (if ts then [[]] else [])) =
        Option.some (renderBindings comps i fields b) := by
  intro comps
  induction comps with
  | nil =>
    intro i _
    cases ts <;> simp [componentSegs, renderTexts, renderBindings, matchSegs]
  | cons c cs ih =>
    intro i hne
    cases c with
    | static v =>
      simp only [componentSegs, renderTexts, renderBindings, List.cons_append, matchSegs,
        if_pos rfl]
      exact ih i fun p hp => hne p (by simpa [renderBindings] using hp)
    | param n =>
      have hval : (if b then encode_param ((params_find fields (param_name n i)).getD [])
          else (params_find fields (param_name n i)).getD []) ≠ [] :=
        hne _ (List.mem_cons_self _ _)
      simp only [componentSegs, renderTexts, renderBindings, List.cons_append, matchSegs]
      rw [if_neg hval]
      simp only [List.append_eq]
      rw [ih (i + 1) (fun p hp => hne p (List.mem_cons_of_mem _ hp))]
      rfl

end Chemin

namespace Chemin

/-- Rebinding the captured rendered texts (decoding them when the flags are
on) reproduces the original field association list. -/
theorem build_fields_render (b : Bool) (comps : List PathComponent) (tr : Bool)
    (texts : List Str)
    (hnodup : (paramNamesFrom comps 0).Nodup)
    (hlen : texts.length = (paramNamesFrom comps 0).length)
    (htexts : ∀ t ∈ texts, t ≠ [] ∧
      (if b then ∀ c ∈ t, c.toNat < 256 else '/' ∉ t ∧ '?' ∉ t)) :
    build_fields (RoutePath.mk comps none tr)
      (renderBindings comps 0 ((paramNamesFrom comps 0).zip texts) b) b =
      Option.some ((paramNamesFrom comps 0).zip texts) := by
  have hkeys : ((paramNamesFrom comps 0).zip texts).map Prod.fst = paramNamesFrom comps 0 :=
    List.map_fst_zip _ _ (le_of_eq hlen.symm)
  have hfindfields : ∀ n t, (n, t) ∈ (paramNamesFrom comps 0).zip texts →
      params_find ((paramNamesFrom comps 0).zip texts) n = Option.some t := by
    intro n t hm
    exact params_find_eq_of_mem _ n t (by rw [hkeys]; exact hnodup) hm
  have hfind : ∀ n ∈ paramNamesFrom comps 0,
      ∃ t, params_find ((paramNamesFrom comps 0).zip texts) n = Option.some t ∧
        t ∈ texts := by
    intro n hn
    obtain ⟨t, hm⟩ := mem_zip_of_mem_left _ texts hlen.symm n hn
    exact ⟨t, hfindfields n t hm, (List.of_mem_zip hm).2⟩
  have hspec := renderBindings_spec b ((paramNamesFrom comps 0).zip texts) texts comps 0 hfind
  have hbkeys := renderBindings_keys b ((paramNamesFrom comps 0).zip texts) comps 0
  show (paramNamesFrom comps 0).mapM _ = _
  rw [mapM_eq_map _ (fun n => (n,
      (params_find ((paramNamesFrom comps 0).zip texts) n).getD [])) _ ?_]
  · rw [map_lookup_eq_zip _ _ texts hlen.symm
      (fun n t hm => hfindfields n t hm)]
  · intro n hn
    have hnk : n ∈ (renderBindings comps 0 ((paramNamesFrom comps 0).zip texts) b).map
        Prod.fst := by
      rw [hbkeys]
      exact hn
    obtain ⟨pair, hpairmem, hpairfst⟩ := List.mem_map.mp hnk
    have hfindps : params_find (renderBindings comps 0 ((paramNamesFrom comps 0).zip texts) b)
        n = Option.some pair.2 := by
      apply params_find_eq_of_mem _ n pair.2 (by rw [hbkeys]; exact hnodup)
      have : pair = (n, pair.2) := by
        cases pair
        simp only at hpairfst
        rw [hpairfst]
      rwa [this] at hpairmem
    obtain ⟨t, htmem, hft, hpv⟩ := hspec pair hpairmem
    rw [hpairfst] at hft
    have hdecode : (if b then decode_param pair.2 else Option.some pair.2) =
        Option.some t := by
      cases b with
      | true =>
        rw [if_pos rfl] at hpv ⊢
        rw [hpv]
        exact decode_encode t (by simpa using (htexts t htmem).2)
      | false =>
        rw [if_neg (by decide)] at hpv ⊢
        rw [hpv]
    show ((if b then decode_param ((params_find _ n).getD [])
        else Option.some ((params_find _ n).getD [])).map fun v => (n, v)) = _
    rw [hfindps]
    simp only [Option.getD_some]
    rw [hdecode]
    simp only [Option.map_some']
    rw [hft]
    rfl

end Chemin

namespace Chemin

/-- C1 (amended): generate-then-parse round-trip on a compiled table, under
either value of the shared encode/decode flag.  If the value's variant
selects, for the explicitly requested locale, a localized route without a
sub-route capture and without query-parameter declarations, every bound
parameter text is non-empty (and, with the flags off, free of `/` and `?`;
with the flags on, byte-sized — the faithful domain of the modelled percent
codec), and the recognizer resolves the generated URL back to the same
entry (no shadowing by another pattern), then parsing the generated URL
succeeds with the structurally equal value and the entry's resulting
locales.  The static segment texts being `/`- and `?`-free and the
parameter names being distinct are guaranteed by the route grammar and the
host language; each dropped assumption is refuted by the counterexample. -/
theorem roundtrip_general
    (fuel : Nat) (entries : List RouterEntry) (e : RouterEntry)
    (texts : List Str) (l : Locale) (b : Bool) (u : Str) (ps : Params)
    (hsel : select_localized (Option.some l)
      (entries.filter fun x => x.variantIdx == e.variantIdx) = Option.some e)
    (hsub : e.path.sub_route = none)
    (hqp : e.query_params = [])
    (hstat : ∀ v, PathComponent.static v ∈ e.path.components → '/' ∉ v ∧ '?' ∉ v)
    (hnodup : (pathParamNames e.path).Nodup)
    (hlen : texts.length = (pathParamNames e.path).length)
    (htexts : ∀ t ∈ texts, t ≠ [] ∧
      (if b then ∀ c ∈ t, c.toNat < 256 else '/' ∉ t ∧ '?' ∉ t))
    (hgen : generate_url (fuel + 1) (.mk entries)
      (RouteValue.mk e.variantIdx ((pathParamNames e.path).zip texts) [] none)
      (Option.some l) b = Option.some u)
    (hresel : selectEntry entries (requestSegs u) = Option.some (e, ps)) :
    parse (fuel + 1) (.mk entries) u b =
      Option.some
        (RouteValue.mk e.variantIdx ((pathParamNames e.path).zip texts) [] none,
          AcceptedLocales.any.resulting_locales (route_locales_of e.locales)) := by
  rcases hpe : e.path with ⟨comps, sr, tr⟩
  have hsr : sr = none := by rw [hpe] at hsub; exact hsub
  subst hsr
  simp only [hpe, pathParamNames] at hnodup hlen hgen ⊢
  simp only [generate_url, hsel, hpe] at hgen
  have hu : render_components comps 0 ((paramNamesFrom comps 0).zip texts) b ++
      (if tr = true then ['/'] else []) = u := Option.some.inj hgen
  have hfindfields : ∀ n t, (n, t) ∈ (paramNamesFrom comps 0).zip texts →
      params_find ((paramNamesFrom comps 0).zip texts) n = Option.some t := by
    intro n t hm
    refine params_find_eq_of_mem _ n t ?_ hm
    rw [List.map_fst_zip _ _ (le_of_eq hlen.symm)]
    exact hnodup
  have hfind : ∀ n ∈ paramNamesFrom comps 0,
      ∃ t, params_find ((paramNamesFrom comps 0).zip texts) n = Option.some t ∧
        t ∈ texts := by
    intro n hn
    obtain ⟨t, hm⟩ := mem_zip_of_mem_left _ texts hlen.symm n hn
    exact ⟨t, hfindfields n t hm, (List.of_mem_zip hm).2⟩
  have hspec := renderBindings_spec b ((paramNamesFrom comps 0).zip texts) texts comps 0 hfind
  have hbne : ∀ p ∈ renderBindings comps 0 ((paramNamesFrom comps 0).zip texts) b,
      p.2 ≠ [] := by
    intro p hp
    obtain ⟨t, htmem, _, hpv⟩ := hspec p hp
    have htne := (htexts t htmem).1
    rw [hpv]
    cases b with
    | true =>
      rw [if_pos rfl]
      exact encode_param_ne_nil t htne
    | false =>
      rw [if_neg (by decide)]
      exact htne
  have hbchar : ∀ p ∈ renderBindings comps 0 ((paramNamesFrom comps 0).zip texts) b,
      '/' ∉ p.2 ∧ '?' ∉ p.2 := by
    intro p hp
    obtain ⟨t, htmem, _, hpv⟩ := hspec p hp
    have hprop := (htexts t htmem).2
    rw [hpv]
    cases b with
    | true =>
      rw [if_pos rfl]
      rw [if_pos rfl] at hprop
      exact encode_param_no_slash_qmark t hprop
    | false =>
      rw [if_neg (by decide)]
      rw [if_neg (by decide)] at hprop
      exact hprop
  have hrt : ∀ t ∈ renderTexts comps 0 ((paramNamesFrom comps 0).zip texts) b, '/' ∉ t := by
    intro t ht
    rcases mem_renderTexts b _ comps 0 t ht with h | ⟨p, hp, hpt⟩
    · exact (hstat t (by rw [hpe]; exact h)).1
    · rw [hpt]
      exact (hbchar p hp).1
  have hqu : '?' ∉ u := by
    rw [← hu]
    intro hm
    rcases List.mem_append.mp hm with h | h
    · exact render_components_no_qmark b ((paramNamesFrom comps 0).zip texts) comps 0
        (fun v hv => (hstat v (by rw [hpe]; exact hv)).2)
        (fun p hp => (hbchar p hp).2) h
    · revert h
      cases tr <;> decide
  rw [parse.eq_def, splitChar_of_not_mem '?' u hqu]
  show parse_with_accepted_locales (fuel + 1) (Router.mk entries) u AcceptedLocales.any b []
    = _
  have hsound := selectEntry_sound entries (requestSegs u) e ps hresel
  rw [hpe] at hsound
  cases comps with
  | nil =>
    have htexts0 : texts = [] :=
      List.length_eq_zero.mp (by simpa [paramNamesFrom, componentSegs] using hlen)
    subst htexts0
    cases tr with
    | false =>
      rw [← hu] at hsound
      exact Option.noConfusion
        (show (none : Option Params) = Option.some ps from hsound)
    | true =>
      simp only [parse_with_accepted_locales, hresel, hpe, hqp]
      rfl
  | cons c cs =>
    have hsegs : requestSegs u =
        renderTexts (c :: cs) 0 ((paramNamesFrom (c :: cs) 0).zip texts) b ++
          (if tr = true then [[]] else []) := by
      rw [← hu]
      cases tr with
      | false =>
        have h2 := requestSegs_render b ((paramNamesFrom (c :: cs) 0).zip texts) []
          (Or.inl rfl) c cs 0 hrt
        simpa using h2
      | true =>
        have h2 := requestSegs_render b ((paramNamesFrom (c :: cs) 0).zip texts) ['/']
          (Or.inr rfl) c cs 0 hrt
        simpa using h2
    rw [hsegs] at hsound
    have hrecog : recognize (RoutePath.mk (c :: cs) none tr)
        (renderTexts (c :: cs) 0 ((paramNamesFrom (c :: cs) 0).zip texts) b ++
          (if tr = true then [[]] else [])) =
        Option.some (renderBindings (c :: cs) 0
          ((paramNamesFrom (c :: cs) 0).zip texts) b) := by
      show matchSegs _ _ = _
      cases tr with
      | false =>
        have h2 := matchSegs_render b ((paramNamesFrom (c :: cs) 0).zip texts) false
          (c :: cs) 0 hbne
        simpa using h2
      | true =>
        have h2 := matchSegs_render b ((paramNamesFrom (c :: cs) 0).zip texts) true
          (c :: cs) 0 hbne
        simpa using h2
    have hps : ps = renderBindings (c :: cs) 0 ((paramNamesFrom (c :: cs) 0).zip texts) b :=
      Option.some.inj (hsound.symm.trans hrecog)
    subst hps
    have hbuild := build_fields_render b (c :: cs) tr texts hnodup hlen htexts
    simp only [parse_with_accepted_locales, hresel, hpe, hqp, hbuild]
    rfl

end Chemin

namespace Chemin

/-- Witness: the amended round-trip at a concrete input — on the scenario
table, `Hello("John")` generates `/hello/John` for `en` with encoding on,
and parsing it back returns the structurally equal value with locales
`["en"]`. -/
theorem roundtrip_general_witness :
    parse 1 helloRouter "/hello/John".data true =
      Option.some (RouteValue.mk 0 [(unnamed_param_name 0, "John".data)] [] none,
        ["en".data]) := by
  exact roundtrip_general 0
    [ RouterEntry.mk 0 (RoutePath.mk [.static "hello".data, .param none] none false)
        ["en".data] [] none
    , RouterEntry.mk 0 (RoutePath.mk [.static "bonjour".data, .param none] none false)
        ["fr".data] [] none ]
    (RouterEntry.mk 0 (RoutePath.mk [.static "hello".data, .param none] none false)
      ["en".data] [] none)
    ["John".data] "en".data true "/hello/John".data
    [(unnamed_param_name 0, "John".data)]
    rfl rfl rfl
    (by intro v hv
        have hv2 : PathComponent.static v ∈
            [PathComponent.static "hello".data, PathComponent.param none] := hv
        rcases List.mem_cons.mp hv2 with h | h
        · injection h with h
          subst h
          decide
        · rcases List.mem_cons.mp h with h | h
          · exact PathComponent.noConfusion h
          · cases h)
    (by decide) (by decide) (by decide)
    rfl rfl

end Chemin
